import Mathlib

/-!
gravwell/tools: named-field extraction and the named-field resource builder

A shallow embedding of

* `brotools/namedfields/main.go` (namespace `NamedFields`): the extractor that turns
  the body of a Bro `record` declaration into an ordered list of indexed fields;
* `nfgen/nfgen.go` (namespace `Nfgen`): the builder that accumulates groups of
  named fields into a versioned resource.

Go strings and byte slices are modelled as lists of Unicode code points (`Str`).
Go `int` values are modelled as `Int`: the only arithmetic in the code is the
field counter of `getTypes`, which would need more than `2^63` fields to wrap.
Functions with Go named results `(v, err)` return the pair, so that a value
returned next to a non-nil error stays visible.
The three patterns handed to `regexp` are written as lists of atoms and run by a
backtracking matcher that prefers the leftmost match and the longest run of a
`class+`, as `regexp` does; reading a file is the pair `ioutil.ReadFile` returned.
-/

/-- Strings and byte slices: a list of code points. -/
abbrev Str := List Char

/-- A Go `error` value: either built from a message (`errors.New`, `fmt.Errorf`)
or handed back by the operating system. -/
inductive Error where
  | msg (text : Str)
  | io (code : Nat)
  deriving DecidableEq, Repr

namespace GoLib

/-- The predicate `unicode.IsSpace`. -/
def isSpace (c : Char) : Bool :=
  let n := c.toNat
  n == 0x09 || n == 0x0A || n == 0x0B || n == 0x0C || n == 0x0D || n == 0x20 ||
  n == 0x85 || n == 0xA0 || n == 0x1680 || (0x2000 ≤ n && n ≤ 0x200A) ||
  n == 0x2028 || n == 0x2029 || n == 0x202F || n == 0x205F || n == 0x3000

/-- The call `bytes.Split(s, []byte("\n"))`: the pieces of `s` between newlines;
always at least one piece. -/
def splitNewline : Str → List Str
  | [] => [[]]
  | c :: cs =>
    if c = '\n' then [] :: splitNewline cs
    else match splitNewline cs with
      | [] => [[c]]
      | l :: ls => (c :: l) :: ls

/-- The function `bytes.TrimSpace`: drop leading and trailing white space. -/
def TrimSpace (s : Str) : Str :=
  ((s.dropWhile isSpace).reverse.dropWhile isSpace).reverse

/-- The function `bytes.HasPrefix`. -/
def HasPrefix (s pre : Str) : Bool :=
  pre.isPrefixOf s

/-- The scanning loop of `strings.Fields`: `cur` is the token being read, reversed. -/
def fieldsLoop : Str → Str → List Str
  | cur, [] => if cur.isEmpty then [] else [cur.reverse]
  | cur, c :: cs =>
    if isSpace c then
      if cur.isEmpty then fieldsLoop [] cs else cur.reverse :: fieldsLoop [] cs
    else fieldsLoop (c :: cur) cs

/-- The function `strings.Fields`: the maximal runs of non-space characters. -/
def Fields (s : Str) : List Str :=
  fieldsLoop [] s

/-- The function `strings.TrimRight(s, cutset)`: drop every trailing character
that belongs to `cutset`. -/
def TrimRight (s cutset : Str) : Str :=
  (s.reverse.dropWhile (fun c => cutset.contains c)).reverse

/-- One piece of a regular expression of `regexp`, as far as the patterns of
`namedfields/main.go` need: a literal character, a character class, or a greedy
`class+`, which may be the capture group of the pattern. -/
inductive Atom where
  | chr (c : Char)
  | cls (p : Char → Bool)
  | plus (p : Char → Bool) (capture : Bool)

/-- A literal string inside a pattern. -/
def lits (s : Str) : List Atom :=
  s.map Atom.chr

/-- The class `\s` of `regexp`: tab, newline, form feed, carriage return, space. -/
def reSpace (c : Char) : Bool :=
  c == '\t' || c == '\n' || c.toNat == 0x0C || c == '\r' || c == ' '

/-- The class `[a-zA-Z]`. -/
def reLetter (c : Char) : Bool :=
  ('a'.toNat ≤ c.toNat && c.toNat ≤ 'z'.toNat) || ('A'.toNat ≤ c.toNat && c.toNat ≤ 'Z'.toNat)

/-- The class `[a-zA-Z_0-9]`. -/
def reWord (c : Char) : Bool :=
  reLetter c || c == '_' || ('0'.toNat ≤ c.toNat && c.toNat ≤ '9'.toNat)

/-- The class `[^\}]`. -/
def reNotBrace (c : Char) : Bool :=
  !(c == '}')

/-- A greedy `class+` after its first character: take as many characters of the
class as there are, and give back one at a time while the rest of the pattern,
`k`, does not match. `acc` is the run taken so far, reversed. -/
def greedy (p : Char → Bool) (k : Str → Str → Option (Str × Str)) :
    Str → Str → Option (Str × Str)
  | acc, [] => k acc.reverse []
  | acc, c :: cs =>
    if p c then
      match greedy p k (c :: acc) cs with
      | some r => some r
      | none => k acc.reverse (c :: cs)
    else k acc.reverse (c :: cs)

/-- Match a pattern at the start of `s`, as a backtracking matcher does: the
text of the capture group and the input left after the match. -/
def matchHere : List Atom → Str → Str → Option (Str × Str)
  | [], s, cap => some (cap, s)
  | Atom.chr c :: rest, s, cap =>
    match s with
    | d :: ds => if d = c then matchHere rest ds cap else none
    | [] => none
  | Atom.cls p :: rest, s, cap =>
    match s with
    | d :: ds => if p d then matchHere rest ds cap else none
    | [] => none
  | Atom.plus p capture :: rest, s, cap =>
    match s with
    | d :: ds =>
      if p d then
        greedy p (fun run left => matchHere rest left (if capture then run else cap)) [d] ds
      else none
    | [] => none

/-- The method `(*Regexp).FindSubmatch` for a pattern with one capture group: nil
when the pattern matches nowhere, else the text of the leftmost match and the
text of its group. -/
def FindSubmatch (re : List Atom) : Str → List Str
  | [] =>
    match matchHere re [] [] with
    | some (cap, _) => [[], cap]
    | none => []
  | c :: cs =>
    match matchHere re (c :: cs) [] with
    | some (cap, left) => [(c :: cs).take ((c :: cs).length - left.length), cap]
    | none => FindSubmatch re cs

/-- The method `Error()` of an error value. -/
def errorText : Error → Str
  | Error.msg t => t
  | Error.io c => "errno ".toList ++ (Nat.repr c).toList

end GoLib

namespace NamedFields

open GoLib

/-- The constant `ErrNotFound = errors.New("not found")`. -/
def ErrNotFound : Error := Error.msg "not found".toList

/-- The struct `Type` of `namedfields/main.go`. -/
structure Type_ where
  Name : Str
  DataType : Str
  Index : Int
  deriving DecidableEq, Repr

/-- The zero value of `Type`. -/
def Type_.zero : Type_ := { Name := [], DataType := [], Index := 0 }

/-- The loop body of `getLines`, over the remaining pieces `vv` with the
result `v` built so far. -/
def getLinesLoop : List Str → List Str → List Str
  | [], v => v
  | x :: vv, v =>
    let t := TrimSpace x
    if HasPrefix t ['#'] || t.length == 0 then getLinesLoop vv v
    else getLinesLoop vv (v ++ [t])

/-- The function `getLines`. -/
def getLines (bts : Str) : List Str :=
  getLinesLoop (splitNewline bts) []

/-- The function `getType`. -/
def getType (l : Str) : Type_ × Option Error :=
  let flds := Fields l
  if flds.length < 2 then (Type_.zero, some ErrNotFound)
  else
    ({ Name := TrimRight (flds.getD 0 []) [':'], DataType := flds.getD 1 [], Index := 0 },
      none)

/-- The function `idSet`. -/
def idSet (idx : Int) : List Type_ :=
  [ { Name := "src".toList, DataType := "ip".toList, Index := idx },
    { Name := "src_port".toList, DataType := "port".toList, Index := idx + 1 },
    { Name := "dst".toList, DataType := "ip".toList, Index := idx + 2 },
    { Name := "dst_port".toList, DataType := "port".toList, Index := idx + 3 } ]

/-- The loop of `getTypes` over the remaining lines, with the named result `tps`
and the counter `idx` as they stand. An error returns `tps` as built so far. -/
def getTypesLoop : List Str → List Type_ → Int → List Type_ × Option Error
  | [], tps, _ => (tps, none)
  | v :: rest, tps, idx =>
    match getType v with
    | (_, some err) => (tps, some err)
    | (tp, none) =>
      if tp.Name = "id".toList ∧ tp.DataType = "conn_id".toList then
        getTypesLoop rest (tps ++ idSet idx) (idx + 4)
      else
        getTypesLoop rest (tps ++ [{ tp with Index := idx }]) (idx + 1)

/-- The function `getTypes`. -/
def getTypes (lines : List Str) : List Type_ × Option Error :=
  getTypesLoop lines [] 0

/-- The integers `0, 1, ..., n-1`, as Go `int` values. -/
def indexRun (n : Nat) : List Int :=
  (List.range n).map Int.ofNat

/-- An `id`/`conn_id` line: at least two tokens, the first one is `id` once its
trailing colons are cut by `strings.TrimRight`, the second one is `conn_id`. -/
def isConnIdLine (l : Str) : Bool :=
  match Fields l with
  | a :: b :: _ => decide (TrimRight a [':'] = "id".toList) && decide (b = "conn_id".toList)
  | _ => false

/-- The fields one well-formed line adds to the result of `getTypes` when the
counter stands at `idx`. -/
def lineFields (l : Str) (idx : Int) : List Type_ :=
  if isConnIdLine l then idSet idx else [{ (getType l).1 with Index := idx }]

/-- A piece of a record body that `getLines` keeps: after trimming it is not
empty and does not begin with `#`. -/
def isFieldLine (l : Str) : Bool :=
  !(TrimSpace l).isEmpty && !HasPrefix (TrimSpace l) ['#']

/-- The constant `defDelim`. -/
def defDelim : Str := ['\t']

/-- The struct `Group` of `namedfields/main.go`. -/
structure Group where
  Delim : Str
  Name : Str
  Subs : List Type_
  deriving DecidableEq, Repr

/-- The zero value of `Group`. -/
def Group.zero : Group := { Delim := [], Name := [], Subs := [] }

/-- The function `getRegexField`. -/
def getRegexField (bts : Str) (r : List Atom) : Str × Option Error :=
  let subs := FindSubmatch r bts
  if subs.length ≤ 1 then ([], some ErrNotFound)
  else (subs.getD 1 [], none)

/-- The pattern `module\s([a-zA-Z_0-9]+);\n` of `getModule`. -/
def modulePattern : List Atom :=
  lits "module".toList ++ [Atom.cls reSpace, Atom.plus reWord true] ++ lits ";\n".toList

/-- The pattern `type\s([a-zA-Z]+)\:\srecord\s\{` of `getTypeRecord`. -/
def recordNamePattern : List Atom :=
  lits "type".toList ++ [Atom.cls reSpace, Atom.plus reLetter true] ++ lits ":".toList ++
    [Atom.cls reSpace] ++ lits "record".toList ++ [Atom.cls reSpace] ++ lits "\x7b".toList

/-- The pattern `type\s[a-zA-Z]+\:\srecord\s\{([^\}]+)\};` of `getTypeRecord`. -/
def recordBodyPattern : List Atom :=
  lits "type".toList ++ [Atom.cls reSpace, Atom.plus reLetter false] ++ lits ":".toList ++
    [Atom.cls reSpace] ++ lits "record".toList ++ [Atom.cls reSpace] ++ lits "\x7b".toList ++
    [Atom.plus reNotBrace true] ++ lits "\x7d;".toList

/-- The function `getModule`. -/
def getModule (bts : Str) : Str × Option Error :=
  getRegexField bts modulePattern

/-- The function `getTypeRecord`: the results `v`, `name`, `err`. -/
def getTypeRecord (bts : Str) : Str × Str × Option Error :=
  match getRegexField bts recordNamePattern with
  | (_, some err) => ([], [], some err)
  | (x, none) =>
    let r := getRegexField bts recordBodyPattern
    (r.1, x, r.2)

/-- The function `processFile`, given what `ioutil.ReadFile` returned. -/
def processFile (file : Str × Option Error) : Group × Option Error :=
  match file.2 with
  | some err => (Group.zero, some err)
  | none =>
    match getModule file.1 with
    | (_, some err) =>
      (Group.zero, some (Error.msg ("Failed to get module ".toList ++ errorText err)))
    | (module, none) =>
      match getTypeRecord file.1 with
      | (_, _, some err) =>
        (Group.zero, some (Error.msg ("Failed to get type record ".toList ++ errorText err)))
      | (tr, _, none) =>
        let lines := getLines tr
        match getTypes lines with
        | (subs, some err) =>
          ({ Group.zero with Subs := subs },
            some (Error.msg ("Failed to get type record ".toList ++ errorText err)))
        | (subs, none) => ({ Delim := defDelim, Name := module, Subs := subs }, none)

/-- A token with one trailing colon stripped, when it has one: the plain
reading of "its trailing colon stripped". -/
def stripOneColon (t : Str) : Str :=
  if t.getLast? = some ':' then t.dropLast else t

/-- An `id`/`conn_id` line under the one-colon reading: at least two tokens, the
first one is `id` once one trailing colon is stripped, the second one is `conn_id`. -/
def isConnIdLineOneColon (l : Str) : Bool :=
  match Fields l with
  | a :: b :: _ => decide (stripOneColon a = "id".toList) && decide (b = "conn_id".toList)
  | _ => false

/-- The name a plain line declares: its first token without its trailing colons. -/
def declName (l : Str) : Str :=
  TrimRight ((Fields l).getD 0 []) [':']

/-- The four names `idSet` gives to the fields of an `id`/`conn_id` line. -/
def synthNames : List Str :=
  ["src".toList, "src_port".toList, "dst".toList, "dst_port".toList]

/-- The names one well-formed line adds to the result of `getTypes`. -/
def lineNames (l : Str) : List Str :=
  if isConnIdLine l then synthNames else [declName l]

/-- The text `module`, one white-space character, the identifier `ident` and
`;` stand in `doc` right after `pre`. -/
def ModuleStmtAt (doc pre ident : Str) : Prop :=
  ∃ w post, reSpace w = true ∧ ident ≠ [] ∧ (∀ c ∈ ident, reWord c = true) ∧
    doc = pre ++ ("module".toList ++ w :: ident ++ ';' :: post)

/-- A `module` statement that stands in `doc` right after `pre` and is followed
at once by a newline. -/
def ModuleDeclAt (doc pre ident : Str) : Prop :=
  ∃ w post, reSpace w = true ∧ ident ≠ [] ∧ (∀ c ∈ ident, reWord c = true) ∧
    doc = pre ++ ("module".toList ++ w :: ident ++ ';' :: '\n' :: post)

/-- The header of a record block stands in `doc` right after `pre`: `type`, a
white-space character, the letters `ident`, `:`, a white-space character,
`record`, a white-space character, `{`. -/
def RecordHeaderAt (doc pre ident : Str) : Prop :=
  ∃ w1 w2 w3 post, reSpace w1 = true ∧ reSpace w2 = true ∧ reSpace w3 = true ∧
    ident ≠ [] ∧ (∀ c ∈ ident, reLetter c = true) ∧
    doc = pre ++ ("type".toList ++ w1 :: ident ++ ':' :: w2 :: "record".toList ++
      w3 :: '{' :: post)

/-- A record block stands in `doc` right after `pre`: a header, a non-empty
`body` without `}`, and `};`. -/
def RecordBlockAt (doc pre ident body : Str) : Prop :=
  ∃ w1 w2 w3 post, reSpace w1 = true ∧ reSpace w2 = true ∧ reSpace w3 = true ∧
    ident ≠ [] ∧ (∀ c ∈ ident, reLetter c = true) ∧
    body ≠ [] ∧ (∀ c ∈ body, c ≠ '}') ∧
    doc = pre ++ ("type".toList ++ w1 :: ident ++ ':' :: w2 :: "record".toList ++
      w3 :: '{' :: body ++ '}' :: ';' :: post)

/-- What the walk function of `main` does with the result of `processFile`: a
group is appended to `bset` only when there is no error. -/
def collect (bset : List Group) (r : Group × Option Error) : List Group :=
  match r.2 with
  | none => bset ++ [r.1]
  | some _ => bset

end NamedFields

namespace Nfgen

/-- The constant `version`. -/
def version : Int := 2

/-- The constant `defaultDelim`. -/
def defaultDelim : Str := ['\t']

/-- The constant `defaultEngine`. -/
def defaultEngine : Str := "fields".toList

/-- A Go `map[string]struct{}` used as a set of strings, allocated with a map
literal as `NewGen` and `NewGroup` do: only membership is observable, keys are
kept without repeats. -/
abbrev StrSet := List Str

/-- The lookup `_, ok := m[k]`. -/
def StrSet.has (m : StrSet) (k : Str) : Bool :=
  m.contains k

/-- The assignment `m[k] = empty`. -/
def StrSet.put (m : StrSet) (k : Str) : StrSet :=
  if m.contains k then m else k :: m

/-- The struct `Sub`. -/
structure Sub where
  Name : Str
  DataType : Str
  Index : Int
  deriving DecidableEq, Repr

/-- The struct `Group`. -/
structure Group where
  Delim : Str
  Engine : Str
  Name : Str
  Subs : List Sub
  subNames : StrSet
  deriving DecidableEq, Repr

/-- The zero value of `Group`, returned by `NewGroup` next to an error. In Go
its `subNames` is a nil map, on which the assignment of `AddSub` cannot run; the
statements about `AddSub` below are about groups a successful `NewGroup` returned. -/
def Group.zero : Group :=
  { Delim := [], Engine := [], Name := [], Subs := [], subNames := [] }

/-- The struct `Resource`. -/
structure Resource where
  Version : Int
  Set : List Group
  deriving DecidableEq, Repr

/-- The struct `NFGen` with its map allocated, as `NewGen` makes it: the embedded
`Resource` and the set of seen group names. -/
structure NFGen extends Resource where
  groups : StrSet
  deriving DecidableEq, Repr

/-- The function `NewGen`. -/
def NewGen : NFGen :=
  { Version := version, Set := [], groups := [] }

/-- The method `AddGroup` on a builder whose map is allocated: the builder after
the call and the returned error. `AddGroupVal` is the method on any value. -/
def AddGroup (n : NFGen) (g : Group) : NFGen × Option Error :=
  if g.Name = [] then
    (n, some (Error.msg "Group name is empty".toList))
  else if n.groups.has g.Name then
    (n, some (Error.msg ("Group ".toList ++ g.Name ++ " already present in the resource".toList)))
  else if g.Subs.length = 0 then
    (n, some (Error.msg "Group contains no extraction definitions".toList))
  else
    ({ n with Set := n.Set ++ [g], groups := n.groups.put g.Name }, none)

/-- What the file system answers to the three calls `Export` makes on its
target: `os.Create`, the write behind `Encode`, and `Close`. -/
structure Target where
  createErr : Option Nat
  writeErr : Option Nat
  closeErr : Option Nat
  deriving DecidableEq, Repr

/-- A call made on the target of `Export`. -/
inductive FileOp where
  | create (p : Str)
  | encode (r : Resource)
  | close
  deriving DecidableEq, Repr

/-- The method `Export`: the calls made on the target, in order, and the
returned error. The encoder writes the exported fields of the builder, that is
its `Resource`. -/
def Export (n : NFGen) (p : Str) (t : Target) : List FileOp × Option Error :=
  if n.Version ≤ 0 then
    ([], some (Error.msg "Invalid version".toList))
  else if n.Set.length = 0 then
    ([], some (Error.msg "The set is empty, no groups present".toList))
  else
    match t.createErr with
    | some e => ([FileOp.create p], some (Error.io e))
    | none =>
      match t.writeErr with
      | some e => ([FileOp.create p, FileOp.encode n.toResource, FileOp.close], some (Error.io e))
      | none =>
        ([FileOp.create p, FileOp.encode n.toResource, FileOp.close],
          t.closeErr.map Error.io)

/-- The function `NewGroup`. -/
def NewGroup (name engine delim : Str) : Group × Option Error :=
  if name = [] then
    (Group.zero, some (Error.msg "Name is empty".toList))
  else
    let engine := if engine = [] then defaultEngine else engine
    let delim := if engine = "fields".toList ∧ delim = [] then defaultDelim else delim
    ({ Name := name, Engine := engine, Delim := delim, Subs := [], subNames := [] }, none)

/-- The method `AddSub`: the group after the call and the returned error. -/
def AddSub (g : Group) (name dt : Str) (idx : Int) : Group × Option Error :=
  if name = [] then
    (g, some (Error.msg "Extraction name is empty".toList))
  else if idx < 0 then
    (g, some (Error.msg "Index must be positive".toList))
  else if g.subNames.has name then
    (g, some (Error.msg (name ++ " extraction name already exists".toList)))
  else
    ({ g with
        Subs := g.Subs ++ [{ Name := name, DataType := [], Index := idx }],
        subNames := g.subNames.put name }, none)

/-- A series of `AddGroup` calls on one builder: the final builder and the
error of each call, in call order. -/
def addGroups : NFGen → List Group → NFGen × List (Option Error)
  | n, [] => (n, [])
  | n, g :: gs =>
    let r := AddGroup n g
    let rest := addGroups r.1 gs
    (rest.1, r.2 :: rest.2)

/-- A series of `AddSub` calls on one group. -/
def addSubs : Group → List (Str × Str × Int) → Group
  | g, [] => g
  | g, (name, dt, idx) :: cs => addSubs (AddSub g name dt idx).1 cs

/-- A value of the exported struct `NFGen` as Go allows it: the map of seen names
may be nil, as it is in the zero value `NFGen{}`; `NewGen` allocates it. -/
structure NFGenVal where
  Version : Int
  Set : List Group
  groups : Option StrSet
  deriving DecidableEq, Repr

/-- The zero value `NFGen{}`. -/
def NFGenVal.zero : NFGenVal :=
  { Version := 0, Set := [], groups := none }

/-- A builder whose map is allocated, as a value of the struct. -/
def NFGen.toVal (n : NFGen) : NFGenVal :=
  { Version := n.Version, Set := n.Set, groups := some n.groups }

/-- How a call of `AddGroup` ends: it returns its error, or it panics; either way
with the builder as the call left it. -/
inductive CallResult where
  | returned (n : NFGenVal) (err : Option Error)
  | panicked (n : NFGenVal)
  deriving DecidableEq, Repr

/-- The method `AddGroup` on any value of `NFGen`. A lookup in a nil map finds
nothing; the assignment `n.groups[g.Name] = empty` into a nil map panics, after
`n.Set` was appended. -/
def AddGroupVal (n : NFGenVal) (g : Group) : CallResult :=
  if g.Name = [] then
    CallResult.returned n (some (Error.msg "Group name is empty".toList))
  else if (match n.groups with
      | some m => m.has g.Name
      | none => false) then
    CallResult.returned n
      (some (Error.msg ("Group ".toList ++ g.Name ++ " already present in the resource".toList)))
  else if g.Subs.length = 0 then
    CallResult.returned n (some (Error.msg "Group contains no extraction definitions".toList))
  else
    match n.groups with
    | some m =>
      CallResult.returned { n with Set := n.Set ++ [g], groups := some (m.put g.Name) } none
    | none => CallResult.panicked { n with Set := n.Set ++ [g] }

/-- The groups a series of `AddGroup` calls accepted: those whose call returned
no error, in call order. -/
def accepted (gs : List Group) (errs : List (Option Error)) : List Group :=
  ((gs.zip errs).filter (fun x => x.2.isNone)).map Prod.fst

/-- The state a builder is in between calls: the group names in `Set` are
pairwise distinct, every group in `Set` has a name and at least one Sub, and the
set of seen names holds exactly the names in `Set`. -/
def NFGen.WF (n : NFGen) : Prop :=
  (n.Set.map Group.Name).Nodup ∧
  (∀ g ∈ n.Set, g.Name ≠ [] ∧ g.Subs ≠ []) ∧
  (∀ k, k ∈ n.groups ↔ k ∈ n.Set.map Group.Name)

/-- The state a group made by `NewGroup` is in between `AddSub` calls: its set
of seen names holds exactly the names of its Subs. -/
def Group.WF (g : Group) : Prop :=
  ∀ k, k ∈ g.subNames ↔ k ∈ g.Subs.map Sub.Name

/-- A group with one Sub `x` at index 0, made with `NewGroup` and `AddSub`. -/
def sampleGroup (name : Str) : Group :=
  (AddSub (NewGroup name [] []).1 "x".toList [] 0).1

/-- The first I/O failure the target reports, if any. -/
def Target.firstErr (t : Target) : Option Error :=
  match t.createErr, t.writeErr, t.closeErr with
  | some e, _, _ => some (Error.io e)
  | none, some e, _ => some (Error.io e)
  | none, none, c => c.map Error.io

end Nfgen

/-! ## The extractor: `getTypes` -/

namespace NamedFields

open GoLib

theorem indexRun_succ (n : Nat) : indexRun (n + 1) = indexRun n ++ [(n : Int)] := by
  simp [indexRun, List.range_succ]

theorem indexRun_getElem? (n i : Nat) (h : i < n) : (indexRun n)[i]? = some (i : Int) := by
  unfold indexRun
  rw [List.getElem?_map, List.getElem?_range h]
  rfl

/-- The loop of `getTypes` only ever appends to the result it starts from. -/
theorem getTypesLoop_acc (lines : List Str) (tps : List Type_) (idx : Int) :
    getTypesLoop lines tps idx =
      (tps ++ (getTypesLoop lines [] idx).1, (getTypesLoop lines [] idx).2) := by
  induction lines generalizing tps idx with
  | nil => simp [getTypesLoop]
  | cons v rest ih =>
    unfold getTypesLoop
    rcases hg : getType v with ⟨tp, _ | err⟩
    · simp only
      split
      · rw [ih (tps ++ idSet idx), ih ([] ++ idSet idx)]
        simp
      · rw [ih (tps ++ _), ih ([] ++ _)]
        simp
    · simp

/-- The counter of `getTypes` stays equal to the number of fields produced, and
the fields produced carry the indices `0, 1, 2, ...` in order. -/
theorem getTypesLoop_index (lines : List Str) (tps : List Type_) (idx : Int)
    (hidx : idx = (tps.length : Int)) (htps : tps.map Type_.Index = indexRun tps.length) :
    (getTypesLoop lines tps idx).1.map Type_.Index =
      indexRun (getTypesLoop lines tps idx).1.length := by
  induction lines generalizing tps idx with
  | nil => simpa [getTypesLoop] using htps
  | cons v rest ih =>
    unfold getTypesLoop
    rcases hg : getType v with ⟨tp, _ | err⟩
    · simp only
      split
      · apply ih
        · simp [idSet, hidx]
        · subst hidx
          simp [idSet, indexRun_succ, htps, List.length_append]
      · apply ih
        · simp [hidx]
        · subst hidx
          simp [indexRun_succ, htps]
    · simpa using htps

theorem getType_eq (l : Str) :
    getType l = match Fields l with
      | a :: b :: _ => (⟨TrimRight a [':'], b, 0⟩, none)
      | _ => (Type_.zero, some ErrNotFound) := by
  unfold getType
  rcases h : Fields l with _ | ⟨a, _ | ⟨b, r⟩⟩ <;> simp

theorem getType_err_iff (l : Str) :
    (getType l).2 = some ErrNotFound ↔ (Fields l).length < 2 := by
  rw [getType_eq]
  rcases h : Fields l with _ | ⟨a, _ | ⟨b, r⟩⟩ <;> simp

theorem getType_ok_iff (l : Str) : (getType l).2 = none ↔ 2 ≤ (Fields l).length := by
  rw [getType_eq]
  rcases h : Fields l with _ | ⟨a, _ | ⟨b, r⟩⟩ <;> simp

theorem getType_err_cases (l : Str) :
    (getType l).2 = none ∨ (getType l).2 = some ErrNotFound := by
  rw [getType_eq]
  rcases h : Fields l with _ | ⟨a, _ | ⟨b, r⟩⟩ <;> simp

/-- On a well-formed line the test `tp.Name == "id" && tp.DataType == "conn_id"` of
`getTypes` is the predicate `isConnIdLine`. -/
theorem getType_isConnIdLine (l : Str) (h : (getType l).2 = none) :
    ((getType l).1.Name = "id".toList ∧ (getType l).1.DataType = "conn_id".toList) ↔
      isConnIdLine l = true := by
  rw [getType_eq] at h ⊢
  unfold isConnIdLine
  rcases hf : Fields l with _ | ⟨a, _ | ⟨b, r⟩⟩
  · simp [hf] at h
  · simp [hf] at h
  · simp

theorem lineFields_length (l : Str) (idx : Int) :
    (lineFields l idx).length = if isConnIdLine l then 4 else 1 := by
  unfold lineFields
  split <;> simp [idSet]

/-- One turn of the loop of `getTypes` on a well-formed line. -/
theorem getTypesLoop_cons_ok (v : Str) (rest : List Str) (tps : List Type_) (idx : Int)
    (h : (getType v).2 = none) :
    getTypesLoop (v :: rest) tps idx =
      getTypesLoop rest (tps ++ lineFields v idx) (idx + ((lineFields v idx).length : Nat)) := by
  have hc := getType_isConnIdLine v h
  rw [getTypesLoop]
  rcases hg : getType v with ⟨tp, _ | err⟩
  · rw [hg] at hc
    simp only at hc ⊢
    by_cases hid : isConnIdLine v = true
    · rw [if_pos (hc.mpr hid)]
      simp [lineFields, hid, idSet]
    · rw [if_neg (fun hh => hid (hc.mp hh))]
      simp [lineFields, hid, hg]
  · rw [hg] at h
    simp at h

/-- One turn of the loop of `getTypes` on a malformed line: the loop stops. -/
theorem getTypesLoop_cons_err (v : Str) (rest : List Str) (tps : List Type_) (idx : Int)
    (e : Error) (h : (getType v).2 = some e) :
    getTypesLoop (v :: rest) tps idx = (tps, some e) := by
  rw [getTypesLoop]
  rcases hg : getType v with ⟨tp, _ | err⟩
  · rw [hg] at h
    simp at h
  · rw [hg] at h
    simp only [Option.some.injEq] at h
    simp [h]

theorem getTypesLoop_ok_iff (lines : List Str) (tps : List Type_) (idx : Int) :
    (getTypesLoop lines tps idx).2 = none ↔ ∀ l ∈ lines, 2 ≤ (Fields l).length := by
  induction lines generalizing tps idx with
  | nil => simp [getTypesLoop]
  | cons v rest ih =>
    rcases getType_err_cases v with hv | hv
    · rw [getTypesLoop_cons_ok v rest tps idx hv, ih]
      have := (getType_ok_iff v).mp hv
      simp [this]
    · rw [getTypesLoop_cons_err v rest tps idx _ hv]
      have := (getType_err_iff v).mp hv
      simp
      intro h2
      omega

theorem getTypesLoop_err_cases (lines : List Str) (tps : List Type_) (idx : Int) :
    (getTypesLoop lines tps idx).2 = none ∨
      (getTypesLoop lines tps idx).2 = some ErrNotFound := by
  induction lines generalizing tps idx with
  | nil => simp [getTypesLoop]
  | cons v rest ih =>
    rcases getType_err_cases v with hv | hv
    · rw [getTypesLoop_cons_ok v rest tps idx hv]
      exact ih _ _
    · rw [getTypesLoop_cons_err v rest tps idx _ hv]
      simp

/-- The number of fields a successful run of the loop of `getTypes` adds: one
for each line and three more for each `id`/`conn_id` line. -/
theorem getTypesLoop_length (lines : List Str) (tps : List Type_) (idx : Int)
    (h : (getTypesLoop lines tps idx).2 = none) :
    (getTypesLoop lines tps idx).1.length =
      tps.length + lines.length + 3 * (lines.filter isConnIdLine).length := by
  induction lines generalizing tps idx with
  | nil => simp [getTypesLoop]
  | cons v rest ih =>
    rcases getType_err_cases v with hv | hv
    · rw [getTypesLoop_cons_ok v rest tps idx hv] at h ⊢
      rw [ih _ _ h, List.length_append, lineFields_length]
      by_cases hid : isConnIdLine v = true
      · simp [hid, List.filter_cons]
        omega
      · simp [hid, List.filter_cons]
        omega
    · rw [getTypesLoop_cons_err v rest tps idx _ hv] at h
      simp at h

/-- Running the loop of `getTypes` over `a ++ b`, started with the counter at the
number of fields: when `a` goes through, the loop carries on over `b` from the
result of `a`; when `a` fails, that failure is the outcome. -/
theorem getTypesLoop_append (a b : List Str) (tps : List Type_) (idx : Int)
    (hidx : idx = (tps.length : Int)) :
    getTypesLoop (a ++ b) tps idx =
      match (getTypesLoop a tps idx).2 with
      | none => getTypesLoop b (getTypesLoop a tps idx).1 ((getTypesLoop a tps idx).1.length : Nat)
      | some _ => getTypesLoop a tps idx := by
  induction a generalizing tps idx with
  | nil => simp [getTypesLoop, hidx]
  | cons v rest ih =>
    rcases getType_err_cases v with hv | hv
    · rw [List.cons_append, getTypesLoop_cons_ok v (rest ++ b) tps idx hv,
        getTypesLoop_cons_ok v rest tps idx hv]
      apply ih
      simp [hidx]
    · rw [List.cons_append, getTypesLoop_cons_err v (rest ++ b) tps idx _ hv,
        getTypesLoop_cons_err v rest tps idx _ hv]

/-- C1. Whenever `getTypes` succeeds, the indices of the returned fields are
exactly `0, 1, ..., N-1` in order: the field at position `i` has `Index = i`, for
any mix of plain lines and `id`/`conn_id` lines. -/
theorem getTypes_indices (lines : List Str) (hok : (getTypes lines).2 = none) :
    (getTypes lines).1.map Type_.Index = indexRun (getTypes lines).1.length ∧
    ∀ (i : Nat) (h : i < (getTypes lines).1.length),
      ((getTypes lines).1.get ⟨i, h⟩).Index = (i : Int) := by
  have hmap : (getTypes lines).1.map Type_.Index = indexRun (getTypes lines).1.length :=
    getTypesLoop_index lines [] 0 (by simp) (by simp [indexRun])
  refine ⟨hmap, fun i h => ?_⟩
  have h1 : ((getTypes lines).1.map Type_.Index)[i]? = (indexRun (getTypes lines).1.length)[i]? := by
    rw [hmap]
  rw [indexRun_getElem? _ _ h, List.getElem?_map, List.getElem?_eq_getElem h] at h1
  simpa using h1

/-- C1 at the lines `id: conn_id`, `a: b`, `id conn_id`: nine fields, indexed 0 to 8. -/
theorem getTypes_indices_witness :
    (getTypes ["id: conn_id".toList, "a: b".toList, "id conn_id".toList]).2 = none ∧
    (getTypes ["id: conn_id".toList, "a: b".toList, "id conn_id".toList]).1.map Type_.Index =
      [0, 1, 2, 3, 4, 5, 6, 7, 8] := by
  refine ⟨by decide, ?_⟩
  rw [(getTypes_indices _ (by decide)).1]
  decide

/-- A successful `getTypes` run, cut at line `k`: the lines before `k` succeed on
their own, and the whole run is the loop resumed on the remaining lines. -/
theorem getTypes_split (lines : List Str) (k : Nat) (hok : (getTypes lines).2 = none) :
    (getTypes (lines.take k)).2 = none ∧
    getTypes lines =
      getTypesLoop (lines.drop k) (getTypes (lines.take k)).1
        ((getTypes (lines.take k)).1.length : Nat) := by
  have happ := getTypesLoop_append (lines.take k) (lines.drop k) [] 0 (by simp)
  rw [List.take_append_drop] at happ
  unfold getTypes at hok ⊢
  rcases hpre : (getTypesLoop (lines.take k) [] 0).2 with _ | e
  · rw [hpre] at happ
    exact ⟨rfl, happ⟩
  · rw [hpre] at happ
    simp only at happ
    rw [happ, hpre] at hok
    simp at hok

theorem lineFields_connId (l : Str) (idx : Int) (h : isConnIdLine l = true) :
    lineFields l idx = idSet idx := by
  simp [lineFields, h]

theorem lineFields_plain (l : Str) (idx : Int) (h : ¬ isConnIdLine l = true) :
    lineFields l idx = [{ (getType l).1 with Index := idx }] := by
  simp [lineFields, h]

/-- C2. In a successful `getTypes` run, an `id`/`conn_id` line at position `k`
yields, at the offset `p` given by the number of fields of the lines before `k`,
the four fields `src(ip,p)`, `src_port(port,p+1)`, `dst(ip,p+2)`,
`dst_port(port,p+3)` in that order, wherever the line stands; the fields before
them are those of the earlier lines, and the field of the next line, if there is
one, sits at position `p+4` with index `p+4`. -/
theorem getTypes_conn_id_expansion (lines : List Str) (k : Nat) (hk : k < lines.length)
    (hok : (getTypes lines).2 = none) (hid : isConnIdLine lines[k] = true)
    (p : Nat) (hp : p = (getTypes (lines.take k)).1.length) :
    (getTypes (lines.take k)).2 = none ∧
    (getTypes lines).1.take p = (getTypes (lines.take k)).1 ∧
    ((getTypes lines).1.drop p).take 4 =
      [ ⟨"src".toList, "ip".toList, p⟩, ⟨"src_port".toList, "port".toList, p + 1⟩,
        ⟨"dst".toList, "ip".toList, p + 2⟩, ⟨"dst_port".toList, "port".toList, p + 3⟩ ] ∧
    (getTypes (lines.take (k + 1))).1.length = p + 4 ∧
    (k + 1 < lines.length →
      ∃ t, (getTypes lines).1.get? (p + 4) = some t ∧ t.Index = (p : Int) + 4) := by
  obtain ⟨hpre, hsplit⟩ := getTypes_split lines k hok
  obtain ⟨_, hsplit1⟩ := getTypes_split lines (k + 1) hok
  have hall := (getTypesLoop_ok_iff lines [] 0).mp hok
  have hdrop : lines.drop k = lines[k] :: lines.drop (k + 1) := List.drop_eq_getElem_cons hk
  have hv : (getType lines[k]).2 = none :=
    (getType_ok_iff _).mpr (hall _ (List.getElem_mem _))
  have hlf : (lineFields lines[k] (p : Int)).length = 4 := by
    rw [lineFields_connId _ _ hid]
    rfl
  have h1 : getTypes lines =
      ((getTypes (lines.take k)).1 ++ idSet p ++
          (getTypesLoop (lines.drop (k + 1)) [] ((p : Int) + 4)).1,
        (getTypesLoop (lines.drop (k + 1)) [] ((p : Int) + 4)).2) := by
    rw [hsplit, hdrop, ← hp, getTypesLoop_cons_ok _ _ _ _ hv, getTypesLoop_acc, hlf,
      lineFields_connId _ _ hid]
    rfl
  have hlen1 : (getTypes (lines.take (k + 1))).1.length = p + 4 := by
    have e1 : lines.take (k + 1) = lines.take k ++ [lines[k]] := by
      rw [List.take_succ, List.getElem?_eq_getElem hk]
      rfl
    have happ := getTypesLoop_append (lines.take k) [lines[k]] [] 0 (by simp)
    unfold getTypes at hpre hp ⊢
    rw [hpre] at happ
    simp only at happ
    rw [e1, happ, ← hp, getTypesLoop_cons_ok _ _ _ _ hv, getTypesLoop, List.length_append, hlf,
      ← hp]
  refine ⟨hpre, ?_, ?_, hlen1, ?_⟩
  · rw [h1, hp]
    simp
  · rw [h1, hp]
    simp only [List.append_assoc, List.drop_left]
    rfl
  · intro hk1
    have hdrop1 : lines.drop (k + 1) = lines[k + 1] :: lines.drop (k + 2) :=
      List.drop_eq_getElem_cons hk1
    have hw : (getType lines[k + 1]).2 = none :=
      (getType_ok_iff _).mpr (hall _ (List.getElem_mem _))
    have h2 : (getTypes lines).1 =
        (getTypes (lines.take (k + 1))).1 ++ (lineFields lines[k + 1] ((p : Int) + 4) ++
            (getTypesLoop (lines.drop (k + 2)) []
              ((p : Int) + 4 + ((lineFields lines[k + 1] ((p : Int) + 4)).length : Nat))).1) := by
      rw [hsplit1, hdrop1, getTypesLoop_cons_ok _ _ _ _ hw, getTypesLoop_acc, hlen1]
      simp
    rw [h2]
    simp only [List.get?_eq_getElem?]
    rw [List.getElem?_append_right (by omega), hlen1, Nat.sub_self]
    by_cases hid1 : isConnIdLine lines[k + 1] = true
    · rw [lineFields_connId _ _ hid1]
      exact ⟨⟨"src".toList, "ip".toList, (p : Int) + 4⟩, rfl, rfl⟩
    · rw [lineFields_plain _ _ hid1]
      exact ⟨{ (getType lines[k + 1]).1 with Index := (p : Int) + 4 },
        List.getElem?_cons_zero, rfl⟩

/-- C2 at the lines `id: conn_id`, `stat: count`: the five fields `src(ip,0)`,
`src_port(port,1)`, `dst(ip,2)`, `dst_port(port,3)`, `stat(count,4)`. -/
theorem getTypes_conn_id_expansion_witness :
    getTypes ["id: conn_id".toList, "stat: count".toList] =
      ([⟨"src".toList, "ip".toList, 0⟩, ⟨"src_port".toList, "port".toList, 1⟩,
        ⟨"dst".toList, "ip".toList, 2⟩, ⟨"dst_port".toList, "port".toList, 3⟩,
        ⟨"stat".toList, "count".toList, 4⟩], none) ∧
    (∃ t, (getTypes ["id: conn_id".toList, "stat: count".toList]).1.get? (0 + 4) = some t ∧
      t.Index = ((0 : Nat) : Int) + 4) :=
  ⟨by decide,
    (getTypes_conn_id_expansion ["id: conn_id".toList, "stat: count".toList] 0 (by decide)
      (by decide) (by decide) 0 (by decide)).2.2.2.2 (by decide)⟩

/-- The loop of `getLines` keeps, in order, the trimmed form of the pieces that
are neither blank nor comments. -/
theorem getLinesLoop_eq (vv v : List Str) :
    getLinesLoop vv v = v ++ (vv.filter isFieldLine).map TrimSpace := by
  induction vv generalizing v with
  | nil => simp [getLinesLoop]
  | cons x vv ih =>
    unfold getLinesLoop
    by_cases hx : (HasPrefix (TrimSpace x) ['#'] || (TrimSpace x).length == 0) = true
    · have hf : isFieldLine x = false := by
        unfold isFieldLine
        rcases Bool.or_eq_true_iff.mp hx with h | h
        · simp [h]
        · have : TrimSpace x = [] := by simpa using h
          simp [this]
      simp only [hx, if_true]
      rw [ih, List.filter_cons_of_neg (by simp [hf])]
    · have hf : isFieldLine x = true := by
        unfold isFieldLine
        simp only [Bool.or_eq_true, not_or, Bool.not_eq_true] at hx
        have h2 : TrimSpace x ≠ [] := by
          intro h0
          simp [h0] at hx
        simp [hx.1, h2]
      simp only [hx]
      rw [List.filter_cons_of_pos hf]
      simp [ih]

theorem getLines_eq (bts : Str) :
    getLines bts = ((splitNewline bts).filter isFieldLine).map TrimSpace := by
  simp [getLines, getLinesLoop_eq]

/-- C3, the claim as stated fails when "its trailing colon stripped" means one
colon: the body `id:: conn_id` has one kept line, which is no `id`/`conn_id` line
under that reading, so the claim counts 1 field; the code cuts both colons and
returns the 4 fields of the expansion. -/
theorem getTypes_getLines_count_two_colons :
    getTypes (getLines "id:: conn_id\n".toList) =
      ([⟨"src".toList, "ip".toList, 0⟩, ⟨"src_port".toList, "port".toList, 1⟩,
        ⟨"dst".toList, "ip".toList, 2⟩, ⟨"dst_port".toList, "port".toList, 3⟩], none) ∧
    ((splitNewline "id:: conn_id\n".toList).filter isFieldLine).length = 1 ∧
    ((splitNewline "id:: conn_id\n".toList).filter
      (fun l => isFieldLine l && isConnIdLineOneColon (TrimSpace l))).length = 0 ∧
    (getTypes (getLines "id:: conn_id\n".toList)).1.length ≠
      ((splitNewline "id:: conn_id\n".toList).filter isFieldLine).length +
        3 * ((splitNewline "id:: conn_id\n".toList).filter
              (fun l => isFieldLine l && isConnIdLineOneColon (TrimSpace l))).length :=
  ⟨by decide, by decide, by decide, by decide⟩

/-- C3, amended. Whenever `getTypes (getLines body)` succeeds, the number of
fields is the number of body lines that are non-empty after trimming and do not
begin with `#`, plus 3 for each of those lines that is an `id`/`conn_id` line,
where the first token is compared with `id` after all its trailing colons are
cut, as `isConnIdLine` does. -/
theorem getTypes_getLines_count (body : Str) (hok : (getTypes (getLines body)).2 = none) :
    (getTypes (getLines body)).1.length =
      ((splitNewline body).filter isFieldLine).length +
        3 * ((splitNewline body).filter
              (fun l => isFieldLine l && isConnIdLine (TrimSpace l))).length := by
  have hlen := getTypesLoop_length (getLines body) [] 0 hok
  unfold getTypes
  rw [hlen, getLines_eq, List.filter_map, List.filter_filter]
  simp only [List.length_nil, List.length_map, Nat.zero_add, Function.comp]
  congr 4
  funext l
  exact Bool.and_comm _ _

/-- C3 at the body `name: string\nage: count\n`: exactly the two fields
`name(string,0)`, `age(count,1)`. -/
theorem getTypes_getLines_count_witness :
    getTypes (getLines "name: string\nage: count\n".toList) =
      ([⟨"name".toList, "string".toList, 0⟩, ⟨"age".toList, "count".toList, 1⟩], none) ∧
    (getTypes (getLines "name: string\nage: count\n".toList)).1.length =
      ((splitNewline "name: string\nage: count\n".toList).filter isFieldLine).length +
        3 * ((splitNewline "name: string\nage: count\n".toList).filter
              (fun l => isFieldLine l && isConnIdLine (TrimSpace l))).length :=
  ⟨by decide, getTypes_getLines_count "name: string\nage: count\n".toList (by decide)⟩

/-- C4. `getTypes` fails with `ErrNotFound` exactly when one of its lines has
fewer than two white-space separated tokens; it has no other error; and one such
line anywhere in the list makes the call fail, whatever lines surround it. -/
theorem getTypes_error_iff (lines : List Str) :
    ((getTypes lines).2 = some ErrNotFound ↔ ∃ l ∈ lines, (Fields l).length < 2) ∧
    ((getTypes lines).2 ≠ none ↔ (getTypes lines).2 = some ErrNotFound) ∧
    (∀ (before after : List Str) (bad : Str), lines = before ++ bad :: after →
      (Fields bad).length < 2 → (getTypes lines).2 = some ErrNotFound) := by
  have hok := getTypesLoop_ok_iff lines [] 0
  have hcases := getTypesLoop_err_cases lines [] 0
  have hiff : (getTypes lines).2 = some ErrNotFound ↔ ∃ l ∈ lines, (Fields l).length < 2 := by
    unfold getTypes
    constructor
    · intro h
      by_contra hne
      push_neg at hne
      rw [hok.mpr hne] at h
      simp at h
    · rintro ⟨l, hl, h2⟩
      rcases hcases with h | h
      · have := hok.mp h l hl
        omega
      · exact h
  refine ⟨hiff, ?_, ?_⟩
  · unfold getTypes
    rcases hcases with h | h <;> simp [h]
  · intro before after bad hl hbad
    exact hiff.mpr ⟨bad, by simp [hl], hbad⟩

/-- C4 at a body with the single-token line `badline` between two well-formed
lines: the call fails with `ErrNotFound`. -/
theorem getTypes_error_iff_witness :
    (Fields "badline".toList).length < 2 ∧
    (getTypes ["name: string".toList, "badline".toList, "age: count".toList]).2 =
      some ErrNotFound :=
  ⟨by decide,
    (getTypes_error_iff ["name: string".toList, "badline".toList, "age: count".toList]).2.2
      ["name: string".toList] ["age: count".toList] "badline".toList rfl (by decide)⟩

end NamedFields

/-! ## The builder: `AddGroup`, `Export`, `NewGroup`, `AddSub` -/

namespace Nfgen

theorem StrSet.has_iff (m : StrSet) (k : Str) : m.has k = true ↔ k ∈ m := by
  simp [StrSet.has]

theorem StrSet.mem_put (m : StrSet) (k x : Str) : x ∈ m.put k ↔ x = k ∨ x ∈ m := by
  unfold StrSet.put
  by_cases h : m.contains k = true
  · have hk : k ∈ m := by simpa using h
    simp only [h, if_true]
    constructor
    · exact Or.inr
    · rintro (rfl | h1)
      · exact hk
      · exact h1
  · have hk : k ∉ m := by simpa using h
    simp [h, hk]

/-- The three rejection tests of `AddGroup`, and what each outcome leaves behind. -/
theorem AddGroup_cases (n : NFGen) (g : Group) :
    ((g.Name = [] ∨ g.Name ∈ n.groups ∨ g.Subs = []) ∧
      (∃ e, (AddGroup n g).2 = some e) ∧ (AddGroup n g).1 = n) ∨
    (¬ (g.Name = [] ∨ g.Name ∈ n.groups ∨ g.Subs = []) ∧
      AddGroup n g =
        ({ n with Set := n.Set ++ [g], groups := n.groups.put g.Name }, none)) := by
  unfold AddGroup
  by_cases h1 : g.Name = []
  · simp [h1]
  · by_cases h2 : g.Name ∈ n.groups
    · simp [h1, (StrSet.has_iff _ _).mpr h2, h2]
    · have h2f : n.groups.has g.Name = false := by
        simpa [StrSet.has] using h2
      by_cases h3 : g.Subs = []
      · simp [h1, h2f, h3]
      · right
        have h3l : ¬ g.Subs.length = 0 := by
          simpa using h3
        simp [h1, h2, h2f, h3, h3l]

/-- On a builder whose map is allocated, `AddGroupVal` is `AddGroup`. -/
theorem AddGroupVal_toVal (n : NFGen) (g : Group) :
    AddGroupVal n.toVal g =
      CallResult.returned (AddGroup n g).1.toVal (AddGroup n g).2 := by
  unfold AddGroupVal AddGroup NFGen.toVal
  by_cases h1 : g.Name = []
  · simp [h1]
  · by_cases h2 : n.groups.has g.Name = true
    · simp [h1, h2]
    · by_cases h3 : g.Subs.length = 0
      · simp [h1, h2, h3]
      · simp [h1, h2, h3]

/-- C5, the claim as stated fails: on the zero value `NFGen{}`, whose map is
nil, a group with a name and a Sub passes the three tests, is appended to Set, and
the call panics at the assignment into the map instead of returning nil. -/
theorem AddGroup_zero_value_panics :
    (sampleGroup "a".toList).Name ≠ [] ∧ (sampleGroup "a".toList).Subs ≠ [] ∧
    AddGroupVal NFGenVal.zero (sampleGroup "a".toList) =
      CallResult.panicked ⟨0, [sampleGroup "a".toList], none⟩ :=
  ⟨by decide, by decide, by decide⟩

/-- C5, amended. For every builder whose map of seen names is allocated, as in
every builder made by `NewGen`, and every group, `AddGroup` returns, and it
returns an error exactly when the group name is empty, or the name is already in
the builder's set of seen names, or the group has no Subs; otherwise it returns
nil. -/
theorem AddGroup_error_iff (n : NFGen) (g : Group) :
    AddGroupVal n.toVal g = CallResult.returned (AddGroup n g).1.toVal (AddGroup n g).2 ∧
    ((∃ e, (AddGroup n g).2 = some e) ↔ (g.Name = [] ∨ g.Name ∈ n.groups ∨ g.Subs = [])) ∧
    ((AddGroup n g).2 = none ↔ ¬ (g.Name = [] ∨ g.Name ∈ n.groups ∨ g.Subs = [])) := by
  refine ⟨AddGroupVal_toVal n g, ?_⟩
  rcases AddGroup_cases n g with ⟨hc, ⟨e, he⟩, _⟩ | ⟨hc, heq⟩
  · refine ⟨⟨fun _ => hc, fun _ => ⟨e, he⟩⟩, ?_⟩
    rw [he]
    simp [hc]
  · rw [heq]
    simp only [reduceCtorEq, exists_false, false_iff, true_iff]
    exact ⟨hc, hc⟩

/-- C5, amended, at a `NewGen` builder: group `a` is accepted, and a second `a`
is turned down with an error. -/
theorem AddGroup_error_iff_witness :
    AddGroupVal NewGen.toVal (sampleGroup "a".toList) =
      CallResult.returned ⟨2, [sampleGroup "a".toList], some ["a".toList]⟩ none ∧
    (AddGroup NewGen (sampleGroup "a".toList)).2 = none ∧
    ∃ e, (AddGroup (AddGroup NewGen (sampleGroup "a".toList)).1 (sampleGroup "a".toList)).2 =
      some e :=
  ⟨by decide,
    (AddGroup_error_iff NewGen (sampleGroup "a".toList)).2.2.mpr (by decide),
    (AddGroup_error_iff (AddGroup NewGen (sampleGroup "a".toList)).1
      (sampleGroup "a".toList)).2.1.mpr (by decide)⟩

/-- C6. A rejected `AddGroup` call leaves the builder as it was: same Version,
same Set, same set of seen names; every later call, and every later series of
calls, behaves as if the rejected call had not been made. -/
theorem AddGroup_error_unchanged (n : NFGen) (g : Group) (e : Error)
    (herr : (AddGroup n g).2 = some e) :
    (AddGroup n g).1 = n ∧
    (AddGroup n g).1.Version = n.Version ∧
    (AddGroup n g).1.Set = n.Set ∧
    (AddGroup n g).1.Set.length = n.Set.length ∧
    (AddGroup n g).1.groups = n.groups ∧
    (∀ g2, AddGroup (AddGroup n g).1 g2 = AddGroup n g2) ∧
    (∀ gs, addGroups (AddGroup n g).1 gs = addGroups n gs) := by
  have hn : (AddGroup n g).1 = n := by
    rcases AddGroup_cases n g with ⟨_, _, h⟩ | ⟨_, heq⟩
    · exact h
    · rw [heq] at herr
      simp at herr
  rw [hn]
  simp

/-- C6 at a builder that already holds group `a`: adding `a` again is rejected and
the builder, with its one group, is as before. -/
theorem AddGroup_error_unchanged_witness :
    (AddGroup (AddGroup NewGen (sampleGroup "a".toList)).1 (sampleGroup "a".toList)).2 =
      some (Error.msg "Group a already present in the resource".toList) ∧
    (AddGroup (AddGroup NewGen (sampleGroup "a".toList)).1 (sampleGroup "a".toList)).1.Set.length =
      (AddGroup NewGen (sampleGroup "a".toList)).1.Set.length :=
  ⟨by decide,
    (AddGroup_error_unchanged (AddGroup NewGen (sampleGroup "a".toList)).1
      (sampleGroup "a".toList) (Error.msg "Group a already present in the resource".toList)
      (by decide)).2.2.2.1⟩

theorem NewGen_WF : NewGen.WF := by
  simp [NFGen.WF, NewGen]

/-- The shape of the builder is kept by every `AddGroup` call. -/
theorem AddGroup_WF (n : NFGen) (g : Group) (h : n.WF) : (AddGroup n g).1.WF := by
  rcases AddGroup_cases n g with ⟨_, _, hn⟩ | ⟨hc, heq⟩
  · rw [hn]
    exact h
  · push_neg at hc
    obtain ⟨hname, hnew, hsubs⟩ := hc
    obtain ⟨hnd, hne, hseen⟩ := h
    rw [heq]
    refine ⟨?_, ?_, ?_⟩
    · simp only [List.map_append, List.map_cons, List.map_nil]
      rw [List.nodup_append]
      refine ⟨hnd, List.nodup_singleton _, ?_⟩
      intro a ha hb
      rw [List.mem_singleton] at hb
      subst hb
      exact hnew ((hseen _).mpr ha)
    · intro x hx
      simp only [List.mem_append, List.mem_singleton] at hx
      rcases hx with hx | rfl
      · exact hne x hx
      · exact ⟨hname, hsubs⟩
    · intro k
      simp only [StrSet.mem_put, List.map_append, List.map_cons, List.map_nil, List.mem_append,
        List.mem_singleton]
      rw [hseen k]
      tauto

theorem AddGroup_Version (n : NFGen) (g : Group) : (AddGroup n g).1.Version = n.Version := by
  rcases AddGroup_cases n g with ⟨_, _, hn⟩ | ⟨_, heq⟩
  · rw [hn]
  · rw [heq]

theorem AddGroup_Set (n : NFGen) (g : Group) :
    (AddGroup n g).1.Set = n.Set ++ accepted [g] [(AddGroup n g).2] := by
  rcases AddGroup_cases n g with ⟨_, ⟨e, he⟩, hn⟩ | ⟨_, heq⟩
  · rw [hn, he]
    simp [accepted]
  · rw [heq]
    simp [accepted]

theorem accepted_cons (g : Group) (gs : List Group) (e : Option Error)
    (es : List (Option Error)) :
    accepted (g :: gs) (e :: es) = accepted [g] [e] ++ accepted gs es := by
  cases e <;> simp [accepted, List.filter_cons]

/-- A series of `AddGroup` calls from any builder: one result per call, the
accepted groups appended in call order, Version untouched, shape kept. -/
theorem addGroups_spec (n : NFGen) (gs : List Group) :
    (addGroups n gs).2.length = gs.length ∧
    (addGroups n gs).1.Set = n.Set ++ accepted gs (addGroups n gs).2 ∧
    (addGroups n gs).1.Version = n.Version ∧
    (n.WF → (addGroups n gs).1.WF) := by
  induction gs generalizing n with
  | nil => simp [addGroups, accepted]
  | cons g gs ih =>
    obtain ⟨h1, h2, h3, h4⟩ := ih (AddGroup n g).1
    simp only [addGroups]
    refine ⟨by simp [h1], ?_, ?_, ?_⟩
    · rw [h2, accepted_cons, AddGroup_Set, List.append_assoc]
    · rw [h3, AddGroup_Version]
    · intro hwf
      exact h4 (AddGroup_WF n g hwf)

/-- C7. For every series of `AddGroup` calls on a builder made by `NewGen`: the
builder's Set is the list of the groups whose call succeeded, in call order; the
names in Set are pairwise distinct and non-empty; every group in Set has at least
one Sub; the set of seen names is the set of names in Set; Version is still the
schema version. -/
theorem addGroups_NewGen (gs : List Group) :
    (addGroups NewGen gs).2.length = gs.length ∧
    (addGroups NewGen gs).1.Set = accepted gs (addGroups NewGen gs).2 ∧
    ((addGroups NewGen gs).1.Set.map Group.Name).Nodup ∧
    (∀ g ∈ (addGroups NewGen gs).1.Set, g.Name ≠ [] ∧ 1 ≤ g.Subs.length) ∧
    (∀ k, k ∈ (addGroups NewGen gs).1.groups ↔
      k ∈ (addGroups NewGen gs).1.Set.map Group.Name) ∧
    (addGroups NewGen gs).1.Version = version ∧ version = 2 := by
  obtain ⟨h1, h2, h3, h4⟩ := addGroups_spec NewGen gs
  obtain ⟨hnd, hne, hseen⟩ := h4 NewGen_WF
  refine ⟨h1, by simpa [NewGen] using h2, hnd, ?_, hseen, by simpa [NewGen] using h3, rfl⟩
  intro g hg
  obtain ⟨ha, hb⟩ := hne g hg
  exact ⟨ha, List.length_pos.mpr hb⟩

/-- C7 at the calls `a`, `b`, `a` again, and a group without Subs: Set is `[a, b]`. -/
theorem addGroups_NewGen_witness :
    (addGroups NewGen [sampleGroup "a".toList, sampleGroup "b".toList,
        sampleGroup "a".toList, (NewGroup "c".toList [] []).1]).1.Set =
      [sampleGroup "a".toList, sampleGroup "b".toList] := by
  rw [(addGroups_NewGen _).2.1]
  decide

/-- When the two validation tests of `Export` pass, the target is created first
and the returned error is the first failure the target reports. -/
theorem Export_valid (n : NFGen) (p : Str) (t : Target)
    (hv : 0 < n.Version) (hs : n.Set ≠ []) :
    (Export n p t).1.head? = some (FileOp.create p) ∧ (Export n p t).2 = t.firstErr := by
  have h1 : ¬ n.Version ≤ 0 := not_le.mpr hv
  have h2 : ¬ n.Set.length = 0 := by
    simpa using hs
  unfold Export Target.firstErr
  simp only [h1, h2, if_false]
  rcases t with ⟨_ | c, _ | w, _ | cl⟩ <;> simp

theorem Target.firstErr_cases (t : Target) :
    t.firstErr = none ∨ ∃ c, t.firstErr = some (Error.io c) := by
  unfold Target.firstErr
  rcases t with ⟨_ | c, _ | w, _ | cl⟩ <;> simp

/-- C8. `Export` returns one of its two validation errors, having made no call
on the target, exactly when Version is not positive or Set is empty; otherwise it
starts by creating the target and fails only with an I/O error of the target. On a
fresh `NewGen` builder it fails on the empty set; on a `NewGen` builder after a
series of `AddGroup` calls of which at least one succeeded, validation passes. -/
theorem Export_validation :
    (∀ (n : NFGen) (p : Str) (t : Target),
      ((∃ m, (Export n p t).2 = some (Error.msg m)) ↔ (n.Version ≤ 0 ∨ n.Set.length = 0)) ∧
      ((n.Version ≤ 0 ∨ n.Set.length = 0) → (Export n p t).1 = []) ∧
      (¬ (n.Version ≤ 0 ∨ n.Set.length = 0) →
        (Export n p t).1.head? = some (FileOp.create p) ∧
        (Export n p t).2 = t.firstErr ∧
        ((Export n p t).2 = none ∨ ∃ c, (Export n p t).2 = some (Error.io c)))) ∧
    (∀ (p : Str) (t : Target),
      Export NewGen p t = ([], some (Error.msg "The set is empty, no groups present".toList))) ∧
    (∀ (gs : List Group) (p : Str) (t : Target), none ∈ (addGroups NewGen gs).2 →
      (Export (addGroups NewGen gs).1 p t).1.head? = some (FileOp.create p) ∧
      (Export (addGroups NewGen gs).1 p t).2 = t.firstErr ∧
      ((Export (addGroups NewGen gs).1 p t).2 = none ∨
        ∃ c, (Export (addGroups NewGen gs).1 p t).2 = some (Error.io c))) := by
  refine ⟨?_, ?_, ?_⟩
  · intro n p t
    by_cases hc : n.Version ≤ 0 ∨ n.Set.length = 0
    · have hE : ∃ m, Export n p t = ([], some (Error.msg m)) := by
        unfold Export
        by_cases h1 : n.Version ≤ 0
        · exact ⟨"Invalid version".toList, by simp [h1]⟩
        · have h2 : n.Set.length = 0 := hc.resolve_left h1
          exact ⟨"The set is empty, no groups present".toList, by simp [h1, h2]⟩
      obtain ⟨m, hm⟩ := hE
      refine ⟨⟨fun _ => hc, fun _ => ⟨m, by rw [hm]⟩⟩, fun _ => by rw [hm], fun h => absurd hc h⟩
    · have hv : 0 < n.Version := by
        by_contra h
        exact hc (Or.inl (not_lt.mp h))
      have hs : n.Set ≠ [] := by
        intro h
        exact hc (Or.inr (by simp [h]))
      obtain ⟨ha, hb⟩ := Export_valid n p t hv hs
      refine ⟨⟨?_, fun h => absurd h hc⟩, fun h => absurd h hc, fun _ => ⟨ha, hb, ?_⟩⟩
      · rintro ⟨m, hm⟩
        rw [hb] at hm
        rcases Target.firstErr_cases t with h | ⟨c, h⟩ <;> rw [h] at hm <;> simp at hm
      · rw [hb]
        exact Target.firstErr_cases t
  · intro p t
    rfl
  · intro gs p t hmem
    obtain ⟨h1, h2, h3, _⟩ := addGroups_spec NewGen gs
    have hv : 0 < (addGroups NewGen gs).1.Version := by
      rw [h3]
      decide
    have hs : (addGroups NewGen gs).1.Set ≠ [] := by
      rw [h2]
      simp only [NewGen, List.nil_append]
      obtain ⟨i, hi, hget⟩ := List.mem_iff_getElem.mp hmem
      have hig : i < gs.length := h1 ▸ hi
      have : gs[i] ∈ accepted gs (addGroups NewGen gs).2 := by
        unfold accepted
        rw [List.mem_map]
        refine ⟨(gs[i], none), ?_, rfl⟩
        rw [List.mem_filter]
        refine ⟨?_, rfl⟩
        rw [List.mem_iff_getElem]
        refine ⟨i, by simp [hig, hi], ?_⟩
        simp [hget]
      exact List.ne_nil_of_mem this
    obtain ⟨ha, hb⟩ := Export_valid _ p t hv hs
    refine ⟨ha, hb, ?_⟩
    rw [hb]
    exact Target.firstErr_cases t

/-- C8 at a `NewGen` builder holding group `a` and a target that answers no
error: the target is created, the resource is written, the file is closed. -/
theorem Export_validation_witness :
    none ∈ (addGroups NewGen [sampleGroup "a".toList]).2 ∧
    (Export (addGroups NewGen [sampleGroup "a".toList]).1 "out".toList ⟨none, none, none⟩).2 =
      none ∧
    (Export (addGroups NewGen [sampleGroup "a".toList]).1 "out".toList ⟨none, none, none⟩).1 =
      [FileOp.create "out".toList,
        FileOp.encode ⟨2, [sampleGroup "a".toList]⟩, FileOp.close] :=
  ⟨by decide,
    (Export_validation.2.2 [sampleGroup "a".toList] "out".toList ⟨none, none, none⟩
      (by decide)).2.1.trans (by decide),
    by decide⟩

/-- The three rejection tests of `AddSub`, and what each outcome leaves behind. -/
theorem AddSub_cases (g : Group) (name dt : Str) (idx : Int) :
    ((name = [] ∨ idx < 0 ∨ name ∈ g.subNames) ∧
      (∃ e, (AddSub g name dt idx).2 = some e) ∧ (AddSub g name dt idx).1 = g) ∨
    (¬ (name = [] ∨ idx < 0 ∨ name ∈ g.subNames) ∧
      AddSub g name dt idx =
        ({ g with
            Subs := g.Subs ++ [{ Name := name, DataType := [], Index := idx }],
            subNames := g.subNames.put name }, none)) := by
  unfold AddSub
  by_cases h1 : name = []
  · simp [h1]
  · by_cases h2 : idx < 0
    · simp [h1, h2]
    · by_cases h3 : name ∈ g.subNames
      · simp [h1, h2, (StrSet.has_iff _ _).mpr h3, h3]
      · have h3f : g.subNames.has name = false := by
          simpa [StrSet.has] using h3
        right
        simp [h1, h2, h3, h3f]

theorem NewGroup_WF (name engine delim : Str) : (NewGroup name engine delim).1.WF := by
  unfold NewGroup
  split <;> simp [Group.WF, Group.zero]

theorem AddSub_WF (g : Group) (name dt : Str) (idx : Int) (h : g.WF) :
    (AddSub g name dt idx).1.WF := by
  rcases AddSub_cases g name dt idx with ⟨_, _, hg⟩ | ⟨_, heq⟩
  · rw [hg]
    exact h
  · rw [heq]
    intro k
    simp only [StrSet.mem_put, List.map_append, List.map_cons, List.map_nil, List.mem_append,
      List.mem_singleton]
    rw [h k]
    tauto

theorem addSubs_WF (g : Group) (calls : List (Str × Str × Int)) (h : g.WF) :
    (addSubs g calls).WF := by
  induction calls generalizing g with
  | nil => exact h
  | cons c cs ih =>
    obtain ⟨name, dt, idx⟩ := c
    exact ih _ (AddSub_WF g name dt idx h)

/-- C9. On a group made by `NewGroup` and changed only by `AddSub` calls,
`AddSub name dt idx` returns an error exactly when `name` is empty, or `idx` is
negative, or a Sub called `name` is already in the group; an error leaves the
group, and so its Subs, as they were. -/
theorem AddSub_error_iff (gname engine delim : Str) (calls : List (Str × Str × Int))
    (hnew : (NewGroup gname engine delim).2 = none)
    (g : Group) (hg : g = addSubs (NewGroup gname engine delim).1 calls)
    (name dt : Str) (idx : Int) :
    ((∃ e, (AddSub g name dt idx).2 = some e) ↔
      (name = [] ∨ idx < 0 ∨ name ∈ g.Subs.map Sub.Name)) ∧
    ((AddSub g name dt idx).2 = none ↔
      ¬ (name = [] ∨ idx < 0 ∨ name ∈ g.Subs.map Sub.Name)) ∧
    ((∃ e, (AddSub g name dt idx).2 = some e) →
      (AddSub g name dt idx).1.Subs = g.Subs ∧ (AddSub g name dt idx).1 = g) := by
  have hwf : g.WF := by
    rw [hg]
    exact addSubs_WF _ _ (NewGroup_WF gname engine delim)
  rw [← hwf name]
  rcases AddSub_cases g name dt idx with ⟨hc, ⟨e, he⟩, hsame⟩ | ⟨hc, heq⟩
  · refine ⟨⟨fun _ => hc, fun _ => ⟨e, he⟩⟩, ?_, fun _ => ⟨by rw [hsame], hsame⟩⟩
    rw [he]
    simp [hc]
  · rw [heq]
    simp only [reduceCtorEq, exists_false, false_iff, true_iff, false_implies, and_true]
    exact ⟨hc, hc⟩

/-- C9 at the group `a` holding Sub `x`: a second `x` is rejected, and so is a
negative index; a new name with index 0 is accepted. -/
theorem AddSub_error_iff_witness :
    (NewGroup "a".toList [] []).2 = none ∧
    (AddSub (sampleGroup "a".toList) "x".toList [] 1).2 =
      some (Error.msg "x extraction name already exists".toList) ∧
    (AddSub (sampleGroup "a".toList) "y".toList [] (-1)).2 =
      some (Error.msg "Index must be positive".toList) ∧
    (AddSub (sampleGroup "a".toList) "y".toList [] 0).2 = none :=
  ⟨by decide, by decide, by decide,
    (AddSub_error_iff "a".toList [] [] [("x".toList, [], 0)] (by decide)
      (sampleGroup "a".toList) rfl "y".toList [] 0).2.1.mpr (by decide)⟩

/-- C10. `NewGroup name engine delim` fails exactly when `name` is empty. On
success the group has the given name and no Subs; its Engine is `engine`, or
`fields` when `engine` is empty; its Delim is a tab when that Engine is `fields`
and `delim` is empty, and `delim` unchanged otherwise, so an engine other than
`fields` never gets a default delimiter. -/
theorem NewGroup_spec (name engine delim : Str) :
    ((∃ e, (NewGroup name engine delim).2 = some e) ↔ name = []) ∧
    ((NewGroup name engine delim).2 = none ↔ name ≠ []) ∧
    (name ≠ [] →
      (NewGroup name engine delim).1.Name = name ∧
      (NewGroup name engine delim).1.Subs = [] ∧
      (NewGroup name engine delim).1.Engine =
        (if engine ≠ [] then engine else "fields".toList) ∧
      (NewGroup name engine delim).1.Delim =
        (if (NewGroup name engine delim).1.Engine = "fields".toList ∧ delim = []
          then ['\t'] else delim) ∧
      ((NewGroup name engine delim).1.Engine ≠ "fields".toList →
        (NewGroup name engine delim).1.Delim = delim)) := by
  unfold NewGroup
  by_cases hn : name = []
  · simp [hn]
  · by_cases he : engine = []
    · by_cases hd : delim = [] <;> simp [hn, he, hd, defaultEngine, defaultDelim]
    · by_cases hf : engine = "fields".toList
      · by_cases hd : delim = [] <;> simp [hn, he, hf, hd, defaultEngine, defaultDelim]
      · have hf2 : ¬ engine = ['f', 'i', 'e', 'l', 'd', 's'] := hf
        simp [hn, he, hf2, defaultEngine, defaultDelim]

/-- C10 at four calls: both defaults, a given delimiter, the `csv` engine
without delimiter, and an empty name. -/
theorem NewGroup_spec_witness :
    NewGroup "a".toList [] [] = (⟨['\t'], "fields".toList, "a".toList, [], []⟩, none) ∧
    NewGroup "a".toList "fields".toList ",".toList =
      (⟨",".toList, "fields".toList, "a".toList, [], []⟩, none) ∧
    NewGroup "a".toList "csv".toList [] = (⟨[], "csv".toList, "a".toList, [], []⟩, none) ∧
    (NewGroup "a".toList "csv".toList []).1.Delim = [] ∧
    (NewGroup [] "csv".toList []).2 = some (Error.msg "Name is empty".toList) :=
  ⟨by decide, by decide, by decide,
    ((NewGroup_spec "a".toList "csv".toList []).2.2 (by decide)).2.2.2.2 (by decide),
    by decide⟩

end Nfgen

/-! ## The patterns of `getModule` and `getTypeRecord` -/

namespace GoLib

theorem matchHere_chr (c : Char) (rest : List Atom) (s cap : Str) (r : Str × Str) :
    matchHere (Atom.chr c :: rest) s cap = some r ↔
      ∃ s', s = c :: s' ∧ matchHere rest s' cap = some r := by
  cases s with
  | nil => simp [matchHere]
  | cons d ds =>
    by_cases h : d = c
    · subst h
      simp [matchHere]
    · simp [matchHere, h]

theorem matchHere_cls (p : Char → Bool) (rest : List Atom) (s cap : Str) (r : Str × Str) :
    matchHere (Atom.cls p :: rest) s cap = some r ↔
      ∃ d s', s = d :: s' ∧ p d = true ∧ matchHere rest s' cap = some r := by
  cases s with
  | nil => simp [matchHere]
  | cons d ds =>
    by_cases h : p d = true
    · simp only [matchHere, h, if_true]
      constructor
      · intro hm
        exact ⟨d, ds, rfl, h, hm⟩
      · rintro ⟨d2, s2, heq, _, hm⟩
        simp only [List.cons.injEq] at heq
        rw [heq.2]
        exact hm
    · simp only [matchHere, h]
      constructor
      · intro hm
        simp at hm
      · rintro ⟨d2, s2, heq, hp, _⟩
        simp only [List.cons.injEq] at heq
        rw [heq.1] at h
        exact absurd hp h

theorem matchHere_lits (t : Str) (rest : List Atom) (s cap : Str) (r : Str × Str) :
    matchHere (lits t ++ rest) s cap = some r ↔
      ∃ s', s = t ++ s' ∧ matchHere rest s' cap = some r := by
  induction t generalizing s with
  | nil => simp [lits]
  | cons c t ih =>
    have hl : lits (c :: t) ++ rest = Atom.chr c :: (lits t ++ rest) := rfl
    rw [hl, matchHere_chr]
    constructor
    · rintro ⟨s', rfl, h⟩
      obtain ⟨s2, rfl, h2⟩ := (ih s').mp h
      exact ⟨s2, rfl, h2⟩
    · rintro ⟨s2, rfl, h2⟩
      exact ⟨t ++ s2, rfl, (ih _).mpr ⟨s2, rfl, h2⟩⟩

/-- Whatever `greedy` returns comes from the rest of the pattern after some run
of class characters. -/
theorem greedy_sound (p : Char → Bool) (k : Str → Str → Option (Str × Str))
    (acc s : Str) (r : Str × Str) (h : greedy p k acc s = some r) :
    ∃ run left, s = run ++ left ∧ (∀ c ∈ run, p c = true) ∧
      k (acc.reverse ++ run) left = some r := by
  induction s generalizing acc with
  | nil => exact ⟨[], [], rfl, by simp, by simpa [greedy] using h⟩
  | cons c cs ih =>
    unfold greedy at h
    by_cases hp : p c = true
    · simp only [hp, if_true] at h
      rcases hg : greedy p k (c :: acc) cs with _ | r2
      · rw [hg] at h
        exact ⟨[], c :: cs, rfl, by simp, by simpa using h⟩
      · rw [hg] at h
        simp only [Option.some.injEq] at h
        subst h
        obtain ⟨run, left, hs, hall, hk⟩ := ih (c :: acc) hg
        refine ⟨c :: run, left, by simp [hs], ?_, ?_⟩
        · intro x hx
          rcases List.mem_cons.mp hx with rfl | hx
          · exact hp
          · exact hall x hx
        · simpa using hk
    · simp only [hp] at h
      exact ⟨[], c :: cs, rfl, by simp, by simpa using h⟩

/-- When the rest of the pattern matches after the longest run of class
characters, that is what `greedy` returns. -/
theorem greedy_max (p : Char → Bool) (k : Str → Str → Option (Str × Str))
    (acc run left : Str) (r : Str × Str) (hall : ∀ c ∈ run, p c = true)
    (hleft : ∀ d ∈ left.head?, p d = false)
    (hk : k (acc.reverse ++ run) left = some r) :
    greedy p k acc (run ++ left) = some r := by
  induction run generalizing acc with
  | nil =>
    cases left with
    | nil => simpa [greedy] using hk
    | cons d l =>
      have hd : p d = false := hleft d (by simp)
      simp only [List.nil_append, greedy, hd]
      simpa using hk
  | cons c run ih =>
    have hc : p c = true := hall c (by simp)
    have := ih (c :: acc) (fun x hx => hall x (by simp [hx])) (by simpa using hk)
    show greedy p k acc (c :: (run ++ left)) = some r
    rw [greedy]
    simp only [hc, if_true]
    rw [this]

/-- A greedy `class+` followed by a literal character outside the class. -/
theorem matchHere_plus_chr (p : Char → Bool) (b : Bool) (c : Char) (hc : p c = false)
    (rest : List Atom) (s cap : Str) (r : Str × Str) :
    matchHere (Atom.plus p b :: Atom.chr c :: rest) s cap = some r ↔
      ∃ run left, run ≠ [] ∧ (∀ x ∈ run, p x = true) ∧ s = run ++ c :: left ∧
        matchHere rest left (if b then run else cap) = some r := by
  constructor
  · intro h
    cases s with
    | nil => simp [matchHere] at h
    | cons d ds =>
      by_cases hd : p d = true
      · simp only [matchHere, hd, if_true] at h
        obtain ⟨run, left, hs, hall, hk⟩ := greedy_sound p _ _ _ _ h
        have hk2 : matchHere (Atom.chr c :: rest) left (if b then d :: run else cap) = some r := by
          simpa using hk
        obtain ⟨left2, rfl, hm⟩ := (matchHere_chr _ _ _ _ _).mp hk2
        refine ⟨d :: run, left2, by simp, ?_, by simp [hs], hm⟩
        intro x hx
        rcases List.mem_cons.mp hx with rfl | hx
        · exact hd
        · exact hall x hx
      · simp [matchHere, hd] at h
  · rintro ⟨run, left, hne, hall, rfl, hm⟩
    cases run with
    | nil => exact absurd rfl hne
    | cons d run =>
      have hd : p d = true := hall d (by simp)
      simp only [List.cons_append, matchHere, hd, if_true]
      apply greedy_max p _ [d] run (c :: left) r (fun x hx => hall x (by simp [hx]))
      · intro x hx
        simp only [List.head?_cons, Option.mem_def, Option.some.injEq] at hx
        subst hx
        exact hc
      · simpa [matchHere] using hm

/-- What `FindSubmatch` returns: nil when the pattern matches at no position,
else the match at the first position where it matches. -/
theorem FindSubmatch_spec (re : List Atom) (s : Str) :
    (FindSubmatch re s = [] ∧ ∀ pre suf, s = pre ++ suf → matchHere re suf [] = none) ∨
    (∃ pre suf cap left, s = pre ++ suf ∧ matchHere re suf [] = some (cap, left) ∧
      (∀ pre2 suf2, s = pre2 ++ suf2 → pre2.length < pre.length →
        matchHere re suf2 [] = none) ∧
      FindSubmatch re s = [suf.take (suf.length - left.length), cap]) := by
  induction s with
  | nil =>
    rcases hm : matchHere re [] [] with _ | ⟨cap, left⟩
    · left
      refine ⟨by simp [FindSubmatch, hm], ?_⟩
      intro pre suf h
      have := List.append_eq_nil.mp h.symm
      rw [this.2]
      exact hm
    · right
      refine ⟨[], [], cap, left, rfl, hm, ?_, by simp [FindSubmatch, hm]⟩
      intro pre2 suf2 _ hlt
      simp at hlt
  | cons c cs ih =>
    rcases hm : matchHere re (c :: cs) [] with _ | ⟨cap, left⟩
    · rcases ih with ⟨hnil, hall⟩ | ⟨pre, suf, cap, left, hs, hmatch, hmin, hfind⟩
      · left
        refine ⟨by simp [FindSubmatch, hm, hnil], ?_⟩
        intro pre suf h
        cases pre with
        | nil =>
          simp only [List.nil_append] at h
          rw [← h]
          exact hm
        | cons d pre =>
          simp only [List.cons_append, List.cons.injEq] at h
          exact hall pre suf h.2
      · right
        refine ⟨c :: pre, suf, cap, left, by simp [hs], hmatch, ?_, by simp [FindSubmatch, hm, hfind]⟩
        intro pre2 suf2 h hlt
        cases pre2 with
        | nil =>
          simp only [List.nil_append] at h
          rw [← h]
          exact hm
        | cons d pre2 =>
          simp only [List.cons_append, List.cons.injEq] at h
          exact hmin pre2 suf2 h.2 (by simpa using hlt)
    · right
      refine ⟨[], c :: cs, cap, left, rfl, hm, ?_, by simp [FindSubmatch, hm]⟩
      intro pre2 suf2 _ hlt
      simp at hlt

end GoLib

namespace NamedFields

open GoLib

theorem modulePattern_eq :
    modulePattern = lits "module".toList ++
      (Atom.cls reSpace :: Atom.plus reWord true :: Atom.chr ';' :: Atom.chr '\n' :: []) :=
  rfl

/-- What a match of the pattern of `getModule` at the start of `suf` is. -/
theorem modulePattern_match (suf cap left : Str) :
    matchHere modulePattern suf [] = some (cap, left) ↔
      ∃ w, reSpace w = true ∧ cap ≠ [] ∧ (∀ c ∈ cap, reWord c = true) ∧
        suf = "module".toList ++ w :: cap ++ ';' :: '\n' :: left := by
  rw [modulePattern_eq, matchHere_lits]
  constructor
  · rintro ⟨s1, hs1, h1⟩
    obtain ⟨w, s2, hs2, hw, h2⟩ := (matchHere_cls _ _ _ _ _).mp h1
    obtain ⟨run, s3, hne, hall, hs3, h3⟩ :=
      (matchHere_plus_chr _ _ _ (by decide) _ _ _ _).mp h2
    obtain ⟨s4, hs4, h4⟩ := (matchHere_chr _ _ _ _ _).mp h3
    simp only [matchHere, if_true, Option.some.injEq, Prod.mk.injEq] at h4
    obtain ⟨hcap, hleft⟩ := h4
    subst hcap hleft hs4 hs3 hs2 hs1
    exact ⟨w, hw, hne, hall, by simp⟩
  · rintro ⟨w, hw, hne, hall, rfl⟩
    refine ⟨w :: cap ++ ';' :: '\n' :: left, by simp, ?_⟩
    refine (matchHere_cls _ _ _ _ _).mpr ⟨w, cap ++ ';' :: '\n' :: left, rfl, hw, ?_⟩
    refine (matchHere_plus_chr _ _ _ (by decide) _ _ _ _).mpr
      ⟨cap, '\n' :: left, hne, hall, rfl, ?_⟩
    exact (matchHere_chr _ _ _ _ _).mpr ⟨left, rfl, by simp [matchHere]⟩

theorem ModuleDeclAt_iff (pre suf ident : Str) :
    ModuleDeclAt (pre ++ suf) pre ident ↔
      ∃ left, matchHere modulePattern suf [] = some (ident, left) := by
  constructor
  · rintro ⟨w, post, hw, hne, hall, h⟩
    have hs := List.append_cancel_left h
    exact ⟨post, (modulePattern_match _ _ _).mpr ⟨w, hw, hne, hall, by simp [hs]⟩⟩
  · rintro ⟨left, h⟩
    obtain ⟨w, hw, hne, hall, hs⟩ := (modulePattern_match _ _ _).mp h
    exact ⟨w, left, hw, hne, hall, by simp [hs]⟩

/-- What `getRegexField` returns: `ErrNotFound` when the pattern matches at no
position of the document, else the group of the match at the first position
where the pattern matches. -/
theorem getRegexField_spec (doc : Str) (re : List Atom) :
    (getRegexField doc re = ([], some ErrNotFound) ∧
      ∀ pre suf, doc = pre ++ suf → matchHere re suf [] = none) ∨
    (∃ pre suf cap left, doc = pre ++ suf ∧ matchHere re suf [] = some (cap, left) ∧
      (∀ pre2 suf2, doc = pre2 ++ suf2 → pre2.length < pre.length →
        matchHere re suf2 [] = none) ∧
      getRegexField doc re = (cap, none)) := by
  rcases FindSubmatch_spec re doc with ⟨hnil, hall⟩ | ⟨pre, suf, cap, left, hs, hm, hmin, hfind⟩
  · left
    exact ⟨by simp [getRegexField, hnil], hall⟩
  · right
    exact ⟨pre, suf, cap, left, hs, hm, hmin, by simp [getRegexField, hfind]⟩

theorem ModuleDeclAt.stmt {doc pre ident : Str} (h : ModuleDeclAt doc pre ident) :
    ModuleStmtAt doc pre ident := by
  obtain ⟨w, post, hw, hne, hall, hd⟩ := h
  exact ⟨w, '\n' :: post, hw, hne, hall, hd⟩

theorem ModuleStmtAt.hasText {doc pre ident : Str} (h : ModuleStmtAt doc pre ident) :
    "module".toList <:+: doc := by
  obtain ⟨w, post, _, _, _, hd⟩ := h
  exact ⟨pre, w :: ident ++ ';' :: post, by simp [hd]⟩

/-- Without a `module` declaration followed by a newline, `getModule` and
`processFile` fail and the walk keeps its set of groups. -/
theorem getModule_no_decl (doc : Str) (h : ∀ pre ident, ¬ ModuleDeclAt doc pre ident) :
    getModule doc = ([], some ErrNotFound) ∧
    processFile (doc, none) =
      (Group.zero, some (Error.msg "Failed to get module not found".toList)) ∧
    ∀ bset, collect bset (processFile (doc, none)) = bset := by
  have hg : getModule doc = ([], some ErrNotFound) := by
    rcases getRegexField_spec doc modulePattern with ⟨hnf, _⟩ | ⟨pre, suf, cap, left, hs, hm, _, _⟩
    · exact hnf
    · exact absurd ((ModuleDeclAt_iff pre suf cap).mpr ⟨left, hm⟩) (hs ▸ h pre cap)
  have hp : processFile (doc, none) =
      (Group.zero, some (Error.msg "Failed to get module not found".toList)) := by
    simp only [processFile, hg]
    rfl
  refine ⟨hg, hp, fun bset => ?_⟩
  rw [hp]
  rfl

/-- C11. In a document without a `module` declaration, that is without `module`,
a white-space character, an identifier and `;` in a row, and so in every document
where the text `module` does not occur, `getModule` returns `ErrNotFound`,
`processFile` fails with the zero group, and the walk adds no group. -/
theorem getModule_not_found (doc : Str) :
    ((∀ pre ident, ¬ ModuleStmtAt doc pre ident) →
      getModule doc = ([], some ErrNotFound) ∧
      processFile (doc, none) =
        (Group.zero, some (Error.msg "Failed to get module not found".toList)) ∧
      ∀ bset, collect bset (processFile (doc, none)) = bset) ∧
    (¬ "module".toList <:+: doc →
      getModule doc = ([], some ErrNotFound) ∧
      processFile (doc, none) =
        (Group.zero, some (Error.msg "Failed to get module not found".toList)) ∧
      ∀ bset, collect bset (processFile (doc, none)) = bset) := by
  constructor
  · intro h
    exact getModule_no_decl doc (fun pre ident hd => h pre ident hd.stmt)
  · intro h
    exact getModule_no_decl doc (fun pre ident hd => h hd.stmt.hasText)

/-- C11 at a document that declares a record but no module. -/
theorem getModule_not_found_witness :
    ¬ "module".toList <:+: "type Info: record \x7b\n  ts: time\n\x7d;\n".toList ∧
    processFile ("type Info: record \x7b\n  ts: time\n\x7d;\n".toList, none) =
      (Group.zero, some (Error.msg "Failed to get module not found".toList)) :=
  ⟨by decide,
    ((getModule_not_found "type Info: record \x7b\n  ts: time\n\x7d;\n".toList).2 (by decide)).2.1⟩

theorem ModuleDeclAt_matches {doc pre ident : Str} (h : ModuleDeclAt doc pre ident) :
    ∃ suf left, doc = pre ++ suf ∧ matchHere modulePattern suf [] = some (ident, left) := by
  obtain ⟨w, post, hw, hne, hall, hd⟩ := h
  exact ⟨_, post, hd, (modulePattern_match _ _ _).mpr ⟨w, hw, hne, hall, by simp⟩⟩

/-- When `processFile` succeeds, the name of the group is what `getModule` returned. -/
theorem processFile_Name (doc : Str) (hok : (processFile (doc, none)).2 = none) :
    (processFile (doc, none)).1.Name = (getModule doc).1 := by
  unfold processFile at hok ⊢
  simp only at hok ⊢
  rcases hm : getModule doc with ⟨m, _ | e⟩
  · rw [hm] at hok
    simp only at hok ⊢
    rcases ht : getTypeRecord doc with ⟨tr, nm, _ | e⟩
    · rw [ht] at hok
      simp only at hok ⊢
      rcases hs : getTypes (getLines tr) with ⟨subs, _ | e⟩
      · rfl
      · rw [hs] at hok
        simp at hok
    · rw [ht] at hok
      simp at hok
  · rw [hm] at hok
    simp at hok

/-- C12, the claim as stated fails: the document `module foo;` holds the pattern
`module <identifier>;`, yet `getModule` returns `ErrNotFound`, because the
pattern of the code ends in a newline. -/
theorem getModule_needs_newline :
    ModuleStmtAt "module foo;".toList [] "foo".toList ∧
    getModule "module foo;".toList = ([], some ErrNotFound) :=
  ⟨⟨' ', [], by decide, by decide, by decide, by decide⟩, by decide⟩

/-- C12, amended. In a document that holds `module`, a white-space character, an
identifier of letters, digits and underscores, `;` and a newline in a row,
`getModule` succeeds and returns the identifier of the first such occurrence;
when `processFile` succeeds, that identifier is the name of the group. -/
theorem getModule_first_decl (doc : Str) (h : ∃ pre ident, ModuleDeclAt doc pre ident) :
    ∃ pre ident, ModuleDeclAt doc pre ident ∧
      (∀ pre2 ident2, ModuleDeclAt doc pre2 ident2 → pre.length ≤ pre2.length) ∧
      getModule doc = (ident, none) ∧
      ((processFile (doc, none)).2 = none → (processFile (doc, none)).1.Name = ident) := by
  obtain ⟨pre0, ident0, h0⟩ := h
  obtain ⟨suf0, left0, hs0, hm0⟩ := ModuleDeclAt_matches h0
  rcases getRegexField_spec doc modulePattern with
    ⟨_, hall⟩ | ⟨pre, suf, cap, left, hs, hm, hmin, hget⟩
  · rw [hall pre0 suf0 hs0] at hm0
    simp at hm0
  · refine ⟨pre, cap, ?_, ?_, hget, ?_⟩
    · rw [hs]
      exact (ModuleDeclAt_iff pre suf cap).mpr ⟨left, hm⟩
    · intro pre2 ident2 h2
      obtain ⟨suf2, left2, hs2, hm2⟩ := ModuleDeclAt_matches h2
      by_contra hlt
      rw [hmin pre2 suf2 hs2 (not_le.mp hlt)] at hm2
      simp at hm2
    · intro hok
      rw [processFile_Name doc hok]
      show (getRegexField doc modulePattern).1 = cap
      rw [hget]

/-- C12, amended, at a Bro script with a module line, a comment that looks like
one, and a record: the group is named `Conn`. -/
theorem getModule_first_decl_witness :
    ModuleDeclAt "module Conn;\n# module x;\ntype Info: record \x7b\n  ts: time\n\x7d;\n".toList
      [] "Conn".toList ∧
    processFile ("module Conn;\n# module x;\ntype Info: record \x7b\n  ts: time\n\x7d;\n".toList,
        none) =
      (⟨['\t'], "Conn".toList, [⟨"ts".toList, "time".toList, 0⟩]⟩, none) ∧
    ∃ pre ident,
      ModuleDeclAt "module Conn;\n# module x;\ntype Info: record \x7b\n  ts: time\n\x7d;\n".toList
        pre ident ∧
      getModule "module Conn;\n# module x;\ntype Info: record \x7b\n  ts: time\n\x7d;\n".toList =
        (ident, none) :=
  ⟨⟨' ', "# module x;\ntype Info: record \x7b\n  ts: time\n\x7d;\n".toList,
      by decide, by decide, by decide, by decide⟩,
    by decide,
    (getModule_first_decl _ ⟨[], "Conn".toList,
      ⟨' ', "# module x;\ntype Info: record \x7b\n  ts: time\n\x7d;\n".toList,
        by decide, by decide, by decide, by decide⟩⟩).imp
      (fun _ hp => hp.imp (fun _ hq => ⟨hq.1, hq.2.2.1⟩))⟩

/-- The shared start of the two patterns of `getTypeRecord`, followed by `rest`. -/
theorem recordHeader_match (b : Bool) (rest : List Atom) (suf cap0 : Str) (r : Str × Str) :
    matchHere (lits "type".toList ++ (Atom.cls reSpace :: Atom.plus reLetter b ::
        Atom.chr ':' :: Atom.cls reSpace :: (lits "record".toList ++
          (Atom.cls reSpace :: Atom.chr '{' :: rest)))) suf cap0 = some r ↔
      ∃ w1 ident w2 w3 s', reSpace w1 = true ∧ reSpace w2 = true ∧ reSpace w3 = true ∧
        ident ≠ [] ∧ (∀ c ∈ ident, reLetter c = true) ∧
        suf = "type".toList ++ w1 :: ident ++ ':' :: w2 :: "record".toList ++ w3 :: '{' :: s' ∧
        matchHere rest s' (if b then ident else cap0) = some r := by
  rw [matchHere_lits]
  constructor
  · rintro ⟨s1, hs1, h1⟩
    obtain ⟨w1, s2, hs2, hw1, h2⟩ := (matchHere_cls _ _ _ _ _).mp h1
    obtain ⟨ident, s3, hne, hall, hs3, h3⟩ :=
      (matchHere_plus_chr _ _ _ (by decide) _ _ _ _).mp h2
    obtain ⟨w2, s4, hs4, hw2, h4⟩ := (matchHere_cls _ _ _ _ _).mp h3
    obtain ⟨s5, hs5, h5⟩ := (matchHere_lits _ _ _ _ _).mp h4
    obtain ⟨w3, s6, hs6, hw3, h6⟩ := (matchHere_cls _ _ _ _ _).mp h5
    obtain ⟨s7, hs7, h7⟩ := (matchHere_chr _ _ _ _ _).mp h6
    subst hs7 hs6 hs5 hs4 hs3 hs2 hs1
    exact ⟨w1, ident, w2, w3, s7, hw1, hw2, hw3, hne, hall, by simp, h7⟩
  · rintro ⟨w1, ident, w2, w3, s', hw1, hw2, hw3, hne, hall, rfl, hm⟩
    refine ⟨w1 :: ident ++ ':' :: w2 :: "record".toList ++ w3 :: '{' :: s', by simp, ?_⟩
    refine (matchHere_cls _ _ _ _ _).mpr ⟨w1, _, rfl, hw1, ?_⟩
    refine (matchHere_plus_chr _ _ _ (by decide) _ _ _ _).mpr
      ⟨ident, w2 :: "record".toList ++ w3 :: '{' :: s', hne, hall, by simp, ?_⟩
    refine (matchHere_cls _ _ _ _ _).mpr ⟨w2, _, rfl, hw2, ?_⟩
    refine (matchHere_lits _ _ _ _ _).mpr ⟨w3 :: '{' :: s', by simp, ?_⟩
    refine (matchHere_cls _ _ _ _ _).mpr ⟨w3, _, rfl, hw3, ?_⟩
    exact (matchHere_chr _ _ _ _ _).mpr ⟨s', rfl, hm⟩

theorem recordNamePattern_eq :
    recordNamePattern = lits "type".toList ++ (Atom.cls reSpace :: Atom.plus reLetter true ::
        Atom.chr ':' :: Atom.cls reSpace :: (lits "record".toList ++
          (Atom.cls reSpace :: Atom.chr '{' :: []))) :=
  rfl

theorem recordBodyPattern_eq :
    recordBodyPattern = lits "type".toList ++ (Atom.cls reSpace :: Atom.plus reLetter false ::
        Atom.chr ':' :: Atom.cls reSpace :: (lits "record".toList ++
          (Atom.cls reSpace :: Atom.chr '{' ::
            (Atom.plus reNotBrace true :: Atom.chr '}' :: Atom.chr ';' :: [])))) :=
  rfl

/-- A header stands right after `pre` exactly when the first pattern of
`getTypeRecord` matches there, with the identifier as its group. -/
theorem RecordHeaderAt_iff (pre suf ident : Str) :
    RecordHeaderAt (pre ++ suf) pre ident ↔
      ∃ left, matchHere recordNamePattern suf [] = some (ident, left) := by
  rw [recordNamePattern_eq]
  constructor
  · rintro ⟨w1, w2, w3, post, hw1, hw2, hw3, hne, hall, hd⟩
    have hs := List.append_cancel_left hd
    exact ⟨post, (recordHeader_match _ _ _ _ _).mpr
      ⟨w1, ident, w2, w3, post, hw1, hw2, hw3, hne, hall, by simp [hs], by simp [matchHere]⟩⟩
  · rintro ⟨left, h⟩
    obtain ⟨w1, id2, w2, w3, s', hw1, hw2, hw3, hne, hall, hs, hm⟩ :=
      (recordHeader_match _ _ _ _ _).mp h
    simp only [matchHere, if_true, Option.some.injEq, Prod.mk.injEq] at hm
    obtain ⟨hid, _⟩ := hm
    subst hid
    exact ⟨w1, w2, w3, s', hw1, hw2, hw3, hne, hall, by simp [hs]⟩

/-- A block stands right after `pre` exactly when the second pattern of
`getTypeRecord` matches there, with the body as its group. -/
theorem RecordBlockAt_iff (pre suf body : Str) :
    (∃ ident, RecordBlockAt (pre ++ suf) pre ident body) ↔
      ∃ left, matchHere recordBodyPattern suf [] = some (body, left) := by
  rw [recordBodyPattern_eq]
  constructor
  · rintro ⟨ident, w1, w2, w3, post, hw1, hw2, hw3, hne, hall, hbne, hball, hd⟩
    have hs := List.append_cancel_left hd
    refine ⟨post, (recordHeader_match _ _ _ _ _).mpr
      ⟨w1, ident, w2, w3, body ++ '}' :: ';' :: post, hw1, hw2, hw3, hne, hall,
        by simp [hs], ?_⟩⟩
    refine (matchHere_plus_chr _ _ _ (by decide) _ _ _ _).mpr
      ⟨body, ';' :: post, hbne, ?_, rfl, ?_⟩
    · intro x hx
      simp [reNotBrace, hball x hx]
    · exact (matchHere_chr _ _ _ _ _).mpr ⟨post, rfl, by simp [matchHere]⟩
  · rintro ⟨left, h⟩
    obtain ⟨w1, ident, w2, w3, s', hw1, hw2, hw3, hne, hall, hs, hm⟩ :=
      (recordHeader_match _ _ _ _ _).mp h
    obtain ⟨run, s2, hrne, hrall, hs2, hm2⟩ :=
      (matchHere_plus_chr _ _ _ (by decide) _ _ _ _).mp hm
    obtain ⟨s3, hs3, hm3⟩ := (matchHere_chr _ _ _ _ _).mp hm2
    simp only [matchHere, if_true, Option.some.injEq, Prod.mk.injEq] at hm3
    obtain ⟨hb, _⟩ := hm3
    subst hb hs3 hs2
    refine ⟨ident, w1, w2, w3, s3, hw1, hw2, hw3, hne, hall, hrne, ?_, by simp [hs]⟩
    intro x hx
    have := hrall x hx
    simpa [reNotBrace] using this

theorem RecordBlockAt.header {doc pre ident body : Str} (h : RecordBlockAt doc pre ident body) :
    RecordHeaderAt doc pre ident := by
  obtain ⟨w1, w2, w3, post, hw1, hw2, hw3, hne, hall, _, _, hd⟩ := h
  exact ⟨w1, w2, w3, body ++ '}' :: ';' :: post, hw1, hw2, hw3, hne, hall, by simp [hd]⟩

theorem RecordBlockAt_matches {doc pre ident body : Str} (h : RecordBlockAt doc pre ident body) :
    ∃ suf left, doc = pre ++ suf ∧ matchHere recordBodyPattern suf [] = some (body, left) := by
  have hd : ∃ suf, doc = pre ++ suf := by
    obtain ⟨_, _, _, _, _, _, _, _, _, _, _, hd⟩ := h
    exact ⟨_, hd⟩
  obtain ⟨suf, hs⟩ := hd
  subst hs
  obtain ⟨left, hm⟩ := (RecordBlockAt_iff pre suf body).mp ⟨ident, h⟩
  exact ⟨suf, left, rfl, hm⟩

theorem RecordHeaderAt_matches {doc pre ident : Str} (h : RecordHeaderAt doc pre ident) :
    ∃ suf left, doc = pre ++ suf ∧ matchHere recordNamePattern suf [] = some (ident, left) := by
  have hd : ∃ suf, doc = pre ++ suf := by
    obtain ⟨_, _, _, _, _, _, _, _, _, hd⟩ := h
    exact ⟨_, hd⟩
  obtain ⟨suf, hs⟩ := hd
  subst hs
  obtain ⟨left, hm⟩ := (RecordHeaderAt_iff pre suf ident).mp h
  exact ⟨suf, left, rfl, hm⟩

/-- C13, the claim as stated fails. In the first document the body returned is
that of block `B` while the name returned is `A`, the identifier of an earlier
header whose braces are empty; the second document has the shape
`type <identifier> : record { <body> };` of the claim, with a space before the
colon, and `getTypeRecord` returns `ErrNotFound`. -/
theorem getTypeRecord_other_name :
    getTypeRecord "type A: record \x7b\x7d;\ntype B: record \x7b x: int \x7d;".toList =
      (" x: int ".toList, "A".toList, none) ∧
    RecordBlockAt "type A: record \x7b\x7d;\ntype B: record \x7b x: int \x7d;".toList
      "type A: record \x7b\x7d;\n".toList "B".toList " x: int ".toList ∧
    getTypeRecord "type Info : record \x7b a: b \x7d;".toList = ([], [], some ErrNotFound) :=
  ⟨by decide,
    ⟨' ', ' ', ' ', [], by decide, by decide, by decide, by decide, by decide, by decide,
      by decide, by decide⟩,
    by decide⟩

/-- C13, amended. A block is `type`, a white-space character, an identifier of
letters, `:`, a white-space character, `record`, a white-space character, `{`, a
non-empty body without `}`, and `};`. In a document with such a block
`getTypeRecord` succeeds and returns the body of the first block; the name it
returns is the identifier of the first header, which is the identifier of that
block when the header is the block's own. In a document without such a block it
returns `ErrNotFound` and no body. -/
theorem getTypeRecord_spec (doc : Str) :
    ((∃ pre ident body, RecordBlockAt doc pre ident body) →
      ∃ pre ident body hpre hident,
        RecordBlockAt doc pre ident body ∧
        (∀ pre2 ident2 body2, RecordBlockAt doc pre2 ident2 body2 →
          pre.length ≤ pre2.length) ∧
        RecordHeaderAt doc hpre hident ∧
        (∀ pre2 ident2, RecordHeaderAt doc pre2 ident2 → hpre.length ≤ pre2.length) ∧
        getTypeRecord doc = (body, hident, none) ∧
        (hpre.length = pre.length → hident = ident)) ∧
    ((∀ pre ident body, ¬ RecordBlockAt doc pre ident body) →
      (getTypeRecord doc).1 = [] ∧ (getTypeRecord doc).2.2 = some ErrNotFound) := by
  constructor
  · rintro ⟨pre0, ident0, body0, h0⟩
    obtain ⟨bsuf0, bleft0, hbs0, hbm0⟩ := RecordBlockAt_matches h0
    obtain ⟨hsuf0, hleft0, hhs0, hhm0⟩ := RecordHeaderAt_matches h0.header
    rcases getRegexField_spec doc recordNamePattern with
      ⟨_, hall⟩ | ⟨hpre, hsuf, hident, hleft, hhs, hhm, hhmin, hhget⟩
    · rw [hall pre0 hsuf0 hhs0] at hhm0
      simp at hhm0
    rcases getRegexField_spec doc recordBodyPattern with
      ⟨_, hall⟩ | ⟨pre, suf, body, left, hs, hm, hmin, hget⟩
    · rw [hall pre0 bsuf0 hbs0] at hbm0
      simp at hbm0
    obtain ⟨ident, hblock⟩ := (RecordBlockAt_iff pre suf body).mpr ⟨left, hm⟩
    rw [← hs] at hblock
    refine ⟨pre, ident, body, hpre, hident, hblock, ?_, ?_, ?_, ?_, ?_⟩
    · intro pre2 ident2 body2 h2
      obtain ⟨suf2, left2, hs2, hm2⟩ := RecordBlockAt_matches h2
      by_contra hlt
      rw [hmin pre2 suf2 hs2 (not_le.mp hlt)] at hm2
      simp at hm2
    · rw [hhs]
      exact (RecordHeaderAt_iff hpre hsuf hident).mpr ⟨hleft, hhm⟩
    · intro pre2 ident2 h2
      obtain ⟨suf2, left2, hs2, hm2⟩ := RecordHeaderAt_matches h2
      by_contra hlt
      rw [hhmin pre2 suf2 hs2 (not_le.mp hlt)] at hm2
      simp at hm2
    · simp only [getTypeRecord, hhget, hget]
    · intro hlen
      obtain ⟨suf3, left3, hs3, hm3⟩ := RecordHeaderAt_matches hblock.header
      have heq : hpre ++ hsuf = pre ++ suf3 := by rw [← hhs, ← hs3]
      obtain ⟨_, hsufeq⟩ := List.append_inj heq hlen
      rw [hsufeq, hm3] at hhm
      simp only [Option.some.injEq, Prod.mk.injEq] at hhm
      exact hhm.1.symm
  · intro hno
    have hbody : getRegexField doc recordBodyPattern = ([], some ErrNotFound) := by
      rcases getRegexField_spec doc recordBodyPattern with
        ⟨hnf, _⟩ | ⟨pre, suf, body, left, hs, hm, _, _⟩
      · exact hnf
      · obtain ⟨ident, hblock⟩ := (RecordBlockAt_iff pre suf body).mpr ⟨left, hm⟩
        rw [← hs] at hblock
        exact absurd hblock (hno pre ident body)
    unfold getTypeRecord
    rcases hn : getRegexField doc recordNamePattern with ⟨x, _ | e⟩
    · simp [hbody]
    · rcases getRegexField_spec doc recordNamePattern with
        ⟨hnf, _⟩ | ⟨_, _, _, _, _, _, _, hget⟩
      · rw [hnf] at hn
        simp only [Prod.mk.injEq, Option.some.injEq] at hn
        simp [← hn.2]
      · rw [hget] at hn
        simp at hn

/-- C13, amended, at a Bro script with one record block. -/
theorem getTypeRecord_spec_witness :
    RecordBlockAt "module Conn;\ntype Info: record \x7b\n  ts: time\n\x7d;\n".toList
      "module Conn;\n".toList "Info".toList "\n  ts: time\n".toList ∧
    getTypeRecord "module Conn;\ntype Info: record \x7b\n  ts: time\n\x7d;\n".toList =
      ("\n  ts: time\n".toList, "Info".toList, none) ∧
    ∃ body hident,
      getTypeRecord "module Conn;\ntype Info: record \x7b\n  ts: time\n\x7d;\n".toList =
        (body, hident, none) :=
  ⟨⟨' ', ' ', ' ', ['\n'], by decide, by decide, by decide, by decide, by decide, by decide,
      by decide, by decide⟩,
    by decide,
    by
      obtain ⟨_, _, body, _, hident, _, _, _, _, hget, _⟩ :=
        (getTypeRecord_spec "module Conn;\ntype Info: record \x7b\n  ts: time\n\x7d;\n".toList).1
          ⟨"module Conn;\n".toList, "Info".toList, "\n  ts: time\n".toList,
            ' ', ' ', ' ', ['\n'], by decide, by decide, by decide, by decide, by decide,
            by decide, by decide, by decide⟩
      exact ⟨body, hident, hget⟩⟩

/-- C14, the claim as stated fails: on the lines `name: string`, `badline` the
call `getTypes` returns `ErrNotFound` together with the field of the first line,
not an empty list. -/
theorem getTypes_error_with_fields :
    getTypes ["name: string".toList, "badline".toList] =
      ([⟨"name".toList, "string".toList, 0⟩], some ErrNotFound) ∧
    (getTypes ["name: string".toList, "badline".toList]).1 ≠ [] :=
  ⟨by decide, by decide⟩

/-- C14, amended. When the lines `before` are well formed and `bad` has fewer
than two tokens, `getTypes` returns `ErrNotFound` together with the fields of
`before`, whatever follows; `processFile` then returns those fields in an
otherwise zero group next to its error, and the walk function drops the result,
so the document adds no group. -/
theorem getTypes_keeps_earlier (before after : List Str) (bad : Str)
    (hgood : ∀ l ∈ before, 2 ≤ (Fields l).length) (hbad : (Fields bad).length < 2) :
    (getTypes before).2 = none ∧
    getTypes (before ++ bad :: after) = ((getTypes before).1, some ErrNotFound) ∧
    (∀ doc m tr nm, getModule doc = (m, none) → getTypeRecord doc = (tr, nm, none) →
      getLines tr = before ++ bad :: after →
      processFile (doc, none) =
        ({ Group.zero with Subs := (getTypes before).1 },
          some (Error.msg "Failed to get type record not found".toList)) ∧
      ∀ bset, collect bset (processFile (doc, none)) = bset) := by
  have hpre : (getTypes before).2 = none := (getTypesLoop_ok_iff before [] 0).mpr hgood
  have hrun : getTypes (before ++ bad :: after) = ((getTypes before).1, some ErrNotFound) := by
    have happ := getTypesLoop_append before (bad :: after) [] 0 (by simp)
    unfold getTypes at hpre ⊢
    rw [hpre] at happ
    simp only at happ
    rw [happ, getTypesLoop_cons_err _ _ _ _ _ ((getType_err_iff bad).mpr hbad)]
  refine ⟨hpre, hrun, ?_⟩
  intro doc m tr nm hm ht hl
  have hp : processFile (doc, none) =
      ({ Group.zero with Subs := (getTypes before).1 },
        some (Error.msg "Failed to get type record not found".toList)) := by
    simp only [processFile, hm, ht, hl, hrun]
    rfl
  refine ⟨hp, fun bset => ?_⟩
  rw [hp]
  rfl

/-- C14, amended, at a script whose record holds `name: string` and `badline`. -/
theorem getTypes_keeps_earlier_witness :
    getTypes (["name: string".toList] ++ "badline".toList :: ["age: count".toList]) =
      ((getTypes ["name: string".toList]).1, some ErrNotFound) ∧
    processFile ("module M;\ntype R: record \x7b\nname: string\nbadline\n\x7d;\n".toList, none) =
      (⟨[], [], [⟨"name".toList, "string".toList, 0⟩]⟩,
        some (Error.msg "Failed to get type record not found".toList)) ∧
    collect [] (processFile
      ("module M;\ntype R: record \x7b\nname: string\nbadline\n\x7d;\n".toList, none)) = [] :=
  ⟨(getTypes_keeps_earlier ["name: string".toList] ["age: count".toList] "badline".toList
      (by decide) (by decide)).2.1,
    by decide, by decide⟩

end NamedFields

namespace Nfgen

/-- Between `AddSub` calls a group made by `NewGroup` keeps its Sub names
pairwise distinct and its indices non-negative. -/
theorem AddSub_sane (g : Group) (name dt : Str) (idx : Int) (hwf : g.WF)
    (hnd : (g.Subs.map Sub.Name).Nodup) (hidx : ∀ x ∈ g.Subs, 0 ≤ x.Index) :
    ((AddSub g name dt idx).1.Subs.map Sub.Name).Nodup ∧
    ∀ x ∈ (AddSub g name dt idx).1.Subs, 0 ≤ x.Index := by
  rcases AddSub_cases g name dt idx with ⟨_, _, hg⟩ | ⟨hc, heq⟩
  · rw [hg]
    exact ⟨hnd, hidx⟩
  · push_neg at hc
    obtain ⟨_, hi, hnew⟩ := hc
    rw [heq]
    constructor
    · simp only [List.map_append, List.map_cons, List.map_nil]
      rw [List.nodup_append]
      refine ⟨hnd, List.nodup_singleton _, ?_⟩
      intro a ha hb
      rw [List.mem_singleton] at hb
      subst hb
      exact hnew ((hwf _).mpr ha)
    · intro x hx
      simp only [List.mem_append, List.mem_singleton] at hx
      rcases hx with hx | rfl
      · exact hidx x hx
      · exact hi

theorem addSubs_sane (g : Group) (calls : List (Str × Str × Int)) (hwf : g.WF)
    (hnd : (g.Subs.map Sub.Name).Nodup) (hidx : ∀ x ∈ g.Subs, 0 ≤ x.Index) :
    ((addSubs g calls).Subs.map Sub.Name).Nodup ∧ ∀ x ∈ (addSubs g calls).Subs, 0 ≤ x.Index := by
  induction calls generalizing g with
  | nil => exact ⟨hnd, hidx⟩
  | cons c cs ih =>
    obtain ⟨name, dt, idx⟩ := c
    obtain ⟨h1, h2⟩ := AddSub_sane g name dt idx hwf hnd hidx
    exact ih _ (AddSub_WF g name dt idx hwf) h1 h2

theorem NewGroup_Subs (name engine delim : Str) : (NewGroup name engine delim).1.Subs = [] := by
  unfold NewGroup
  split <;> rfl

/-- C15, the claim as stated fails: a fresh builder accepts a group whose two
Subs share the name `x` and whose second index is negative. -/
theorem AddGroup_accepts_invalid_subs :
    (AddGroup NewGen
      ⟨[], [], "g".toList, [⟨"x".toList, [], 0⟩, ⟨"x".toList, [], -1⟩], []⟩).2 = none ∧
    ¬ (([⟨"x".toList, [], 0⟩, ⟨"x".toList, [], -1⟩] : List Sub).map Sub.Name).Nodup ∧
    ¬ ∀ x ∈ ([⟨"x".toList, [], 0⟩, ⟨"x".toList, [], -1⟩] : List Sub), 0 ≤ x.Index :=
  ⟨by decide, by decide, by decide⟩

/-- C15, amended. A group that `AddGroup` accepts has a name, a name not seen
before, and at least one Sub, and goes into Set as it is; `AddGroup` does not look
into the Subs. When the group was made by `NewGroup` and filled by `AddSub` calls,
its Sub names are pairwise distinct and its indices are not negative. -/
theorem AddGroup_accepts (n : NFGen) (g : Group) (hok : (AddGroup n g).2 = none) :
    g.Name ≠ [] ∧ g.Name ∉ n.groups ∧ 1 ≤ g.Subs.length ∧
    (AddGroup n g).1.Set = n.Set ++ [g] ∧
    (∀ gname engine delim calls, (NewGroup gname engine delim).2 = none →
      g = addSubs (NewGroup gname engine delim).1 calls →
      (g.Subs.map Sub.Name).Nodup ∧ ∀ x ∈ g.Subs, 0 ≤ x.Index) := by
  rcases AddGroup_cases n g with ⟨_, ⟨e, he⟩, _⟩ | ⟨hc, heq⟩
  · rw [he] at hok
    simp at hok
  · push_neg at hc
    obtain ⟨h1, h2, h3⟩ := hc
    refine ⟨h1, h2, List.length_pos.mpr h3, by rw [heq], ?_⟩
    intro gname engine delim calls _ hg
    rw [hg]
    exact addSubs_sane _ calls (NewGroup_WF gname engine delim)
      (by simp [NewGroup_Subs]) (by simp [NewGroup_Subs])

/-- C15, amended, at a fresh builder and the group `a` with its Sub `x`. -/
theorem AddGroup_accepts_witness :
    (AddGroup NewGen (sampleGroup "a".toList)).2 = none ∧
    ((sampleGroup "a".toList).Subs.map Sub.Name).Nodup ∧
    (AddGroup NewGen (sampleGroup "a".toList)).1.Set = [sampleGroup "a".toList] :=
  ⟨by decide,
    ((AddGroup_accepts NewGen (sampleGroup "a".toList) (by decide)).2.2.2.2
      "a".toList [] [] [("x".toList, [], 0)] (by decide) rfl).1,
    (AddGroup_accepts NewGen (sampleGroup "a".toList) (by decide)).2.2.2.1⟩

/-- C17, the code at the failing input: `AddSub` with index 0 on a new group
returns no error and stores a Sub whose Index is 0, which is not greater than 0. -/
theorem AddSub_accepts_zero :
    AddSub (NewGroup "g".toList [] []).1 "x".toList [] 0 =
      (⟨['\t'], "fields".toList, "g".toList, [⟨"x".toList, [], 0⟩], ["x".toList]⟩, none) ∧
    ¬ ∀ x ∈ (AddSub (NewGroup "g".toList [] []).1 "x".toList [] 0).1.Subs, 0 < x.Index :=
  ⟨by decide, by decide⟩

/-- C20. A successful `AddSub name dt idx` on a group made by `NewGroup` and
changed only by `AddSub` appends the one Sub `name`, `idx` with an empty DataType
at the end of Subs and leaves Name, Engine and Delim alone; `dt` plays no part:
any two type tags give the same error and the same group. -/
theorem AddSub_appends (gname engine delim : Str) (calls : List (Str × Str × Int))
    (hnew : (NewGroup gname engine delim).2 = none)
    (g : Group) (hg : g = addSubs (NewGroup gname engine delim).1 calls)
    (name dt : Str) (idx : Int) :
    ((AddSub g name dt idx).2 = none →
      (AddSub g name dt idx).1.Subs = g.Subs ++ [⟨name, [], idx⟩] ∧
      (AddSub g name dt idx).1.Name = g.Name ∧
      (AddSub g name dt idx).1.Engine = g.Engine ∧
      (AddSub g name dt idx).1.Delim = g.Delim) ∧
    (∀ dt1 dt2, AddSub g name dt1 idx = AddSub g name dt2 idx) := by
  refine ⟨fun hok => ?_, fun _ _ => rfl⟩
  rcases AddSub_cases g name dt idx with ⟨_, ⟨e, he⟩, _⟩ | ⟨_, heq⟩
  · rw [he] at hok
    simp at hok
  · rw [heq]
    exact ⟨rfl, rfl, rfl, rfl⟩

/-- C20 at the group `a` holding `x`: adding `y` at index 3 with the type tag
`string` gives the Subs `x`, `y`, and `y` has no DataType. -/
theorem AddSub_appends_witness :
    (AddSub (sampleGroup "a".toList) "y".toList "string".toList 3).2 = none ∧
    (AddSub (sampleGroup "a".toList) "y".toList "string".toList 3).1.Subs =
      (sampleGroup "a".toList).Subs ++ [⟨"y".toList, [], 3⟩] ∧
    (AddSub (sampleGroup "a".toList) "y".toList "string".toList 3).1.Subs =
      [⟨"x".toList, [], 0⟩, ⟨"y".toList, [], 3⟩] :=
  ⟨by decide,
    ((AddSub_appends "a".toList [] [] [("x".toList, [], 0)] (by decide)
      (sampleGroup "a".toList) rfl "y".toList "string".toList 3).1 (by decide)).1,
    by decide⟩

end Nfgen

namespace NamedFields

open GoLib

theorem lineFields_names (l : Str) (idx : Int) (h : (getType l).2 = none) :
    (lineFields l idx).map Type_.Name = lineNames l := by
  unfold lineFields lineNames
  by_cases hid : isConnIdLine l = true
  · simp only [hid, if_true]
    rfl
  · simp only [hid]
    rw [getType_eq] at h ⊢
    unfold declName
    rcases hf : Fields l with _ | ⟨a, _ | ⟨b, r⟩⟩
    · simp [hf] at h
    · simp [hf] at h
    · simp

/-- The names a successful run of the loop of `getTypes` adds, line by line. -/
theorem getTypesLoop_names (lines : List Str) (tps : List Type_) (idx : Int)
    (h : (getTypesLoop lines tps idx).2 = none) :
    (getTypesLoop lines tps idx).1.map Type_.Name =
      tps.map Type_.Name ++ lines.flatMap lineNames := by
  induction lines generalizing tps idx with
  | nil => simp [getTypesLoop]
  | cons v rest ih =>
    rcases getType_err_cases v with hv | hv
    · rw [getTypesLoop_cons_ok v rest tps idx hv] at h ⊢
      rw [ih _ _ h, List.map_append, lineFields_names v idx hv, List.flatMap_cons,
        List.append_assoc]
    · rw [getTypesLoop_cons_err v rest tps idx _ hv] at h
      simp at h

/-- The names of the lines, reordered: the declared names of the plain lines,
then the four synthetic names once for each `id`/`conn_id` line. -/
theorem flatMap_lineNames_perm (lines : List Str) :
    List.Perm (lines.flatMap lineNames)
      (((lines.filter (fun l => !isConnIdLine l)).map declName) ++
        (List.replicate (lines.filter isConnIdLine).length synthNames).flatten) := by
  induction lines with
  | nil => simp
  | cons l rest ih =>
    rw [List.flatMap_cons]
    by_cases hid : isConnIdLine l = true
    · have h1 : (l :: rest).filter isConnIdLine = l :: rest.filter isConnIdLine :=
        List.filter_cons_of_pos hid
      have h2 : (l :: rest).filter (fun l => !isConnIdLine l) =
          rest.filter (fun l => !isConnIdLine l) :=
        List.filter_cons_of_neg (by simp [hid])
      rw [h1, h2, List.length_cons, List.replicate_succ, List.flatten_cons]
      have hl : lineNames l = synthNames := by simp [lineNames, hid]
      rw [hl]
      refine (List.Perm.append_left synthNames ih).trans ?_
      rw [← List.append_assoc, ← List.append_assoc]
      exact List.Perm.append_right _ List.perm_append_comm
    · have hidf : isConnIdLine l = false := by simpa using hid
      have h1 : (l :: rest).filter isConnIdLine = rest.filter isConnIdLine :=
        List.filter_cons_of_neg hid
      have h2 : (l :: rest).filter (fun l => !isConnIdLine l) =
          l :: rest.filter (fun l => !isConnIdLine l) :=
        List.filter_cons_of_pos (by simp [hidf])
      rw [h1, h2]
      have hl : lineNames l = [declName l] := by simp [lineNames, hid]
      rw [hl, List.map_cons]
      exact List.Perm.cons _ ih

/-- The synthetic names written out twice or more hold a repeat. -/
theorem replicate_synthNames_nodup (k : Nat) :
    (List.replicate k synthNames).flatten.Nodup ↔ k ≤ 1 := by
  match k with
  | 0 => simp
  | 1 =>
    simp only [List.replicate_one, List.flatten_cons, List.flatten_nil, List.append_nil,
      le_refl, iff_true]
    decide
  | k + 2 =>
    simp only [List.replicate_succ, List.flatten_cons]
    constructor
    · intro h
      rw [List.nodup_append] at h
      exact absurd (List.mem_append_left _ (by decide : "src".toList ∈ synthNames))
        (h.2.2 (by decide : "src".toList ∈ synthNames))
    · intro h
      omega

/-- C16, the claim as stated fails: `getTypes` succeeds on two lines that declare
the same name, and on an `id`/`conn_id` line followed by a line that declares
`src`; both results hold a name twice. -/
theorem getTypes_repeated_names :
    (getTypes ["a: int".toList, "a: string".toList]).2 = none ∧
    (getTypes ["a: int".toList, "a: string".toList]).1.map Type_.Name =
      ["a".toList, "a".toList] ∧
    ¬ ((getTypes ["a: int".toList, "a: string".toList]).1.map Type_.Name).Nodup ∧
    (getTypes ["id: conn_id".toList, "src: addr".toList]).2 = none ∧
    ¬ ((getTypes ["id: conn_id".toList, "src: addr".toList]).1.map Type_.Name).Nodup :=
  ⟨by decide, by decide, by decide, by decide, by decide⟩

/-- C16, amended. Whenever `getTypes` succeeds, the names of the returned fields
are, line by line, the declared name of each plain line and the four synthetic
names of each `id`/`conn_id` line; they are pairwise distinct exactly when the
plain lines declare pairwise distinct names, at most one line is an `id`/`conn_id`
line, and, if there is one, no plain line declares a synthetic name. -/
theorem getTypes_names_nodup (lines : List Str) (hok : (getTypes lines).2 = none) :
    (getTypes lines).1.map Type_.Name = lines.flatMap lineNames ∧
    (((getTypes lines).1.map Type_.Name).Nodup ↔
      ((lines.filter (fun l => !isConnIdLine l)).map declName).Nodup ∧
      (lines.filter isConnIdLine).length ≤ 1 ∧
      ((lines.filter isConnIdLine).length = 1 →
        ∀ l ∈ lines, isConnIdLine l = false → declName l ∉ synthNames)) := by
  have hnames : (getTypes lines).1.map Type_.Name = lines.flatMap lineNames := by
    have := getTypesLoop_names lines [] 0 hok
    simpa using this
  refine ⟨hnames, ?_⟩
  rw [hnames, (flatMap_lineNames_perm lines).nodup_iff, List.nodup_append,
    replicate_synthNames_nodup]
  constructor
  · rintro ⟨h1, h2, h3⟩
    refine ⟨h1, h2, ?_⟩
    intro hk l hl hplain hmem
    rw [hk] at h3
    have hA : declName l ∈ (lines.filter (fun l => !isConnIdLine l)).map declName :=
      List.mem_map.mpr ⟨l, List.mem_filter.mpr ⟨hl, by simp [hplain]⟩, rfl⟩
    exact h3 hA (by simpa using hmem)
  · rintro ⟨h1, h2, h3⟩
    refine ⟨h1, h2, ?_⟩
    intro a ha hb
    obtain ⟨l, hl, rfl⟩ := List.mem_map.mp ha
    obtain ⟨hl1, hl2⟩ := List.mem_filter.mp hl
    have hk : (lines.filter isConnIdLine).length = 1 := by
      rcases Nat.lt_or_ge (lines.filter isConnIdLine).length 1 with hlt | hge
      · have h0 : (lines.filter isConnIdLine).length = 0 := by omega
        rw [h0] at hb
        simp at hb
      · omega
    rw [hk] at hb
    exact h3 hk l hl1 (by simpa using hl2) (by simpa using hb)

/-- C16, amended, at the lines `ts: time`, `id: conn_id`, `proto: string`: six
distinct names. -/
theorem getTypes_names_nodup_witness :
    (getTypes ["ts: time".toList, "id: conn_id".toList, "proto: string".toList]).2 = none ∧
    (getTypes ["ts: time".toList, "id: conn_id".toList, "proto: string".toList]).1.map
        Type_.Name =
      ["ts".toList, "src".toList, "src_port".toList, "dst".toList, "dst_port".toList,
        "proto".toList] ∧
    ((getTypes ["ts: time".toList, "id: conn_id".toList, "proto: string".toList]).1.map
        Type_.Name).Nodup :=
  ⟨by decide, by decide,
    (getTypes_names_nodup ["ts: time".toList, "id: conn_id".toList, "proto: string".toList]
      (by decide)).2.mpr ⟨by decide, by decide, by decide⟩⟩

theorem splitNewline_ne_nil (s : Str) : splitNewline s ≠ [] := by
  cases s with
  | nil => simp [splitNewline]
  | cons c cs =>
    unfold splitNewline
    by_cases hc : c = '\n'
    · simp [hc]
    · simp only [hc, if_false]
      split <;> simp

/-- The pieces of `splitNewline` hold no newline, and put back together with
newlines between them they give the input. -/
theorem splitNewline_spec (s : Str) :
    (∀ piece ∈ splitNewline s, '\n' ∉ piece) ∧
    List.intercalate ['\n'] (splitNewline s) = s := by
  induction s with
  | nil => simp [splitNewline, List.intercalate]
  | cons c cs ih =>
    obtain ⟨ih1, ih2⟩ := ih
    unfold splitNewline
    rcases hsp : splitNewline cs with _ | ⟨l, ls⟩
    · exact absurd hsp (splitNewline_ne_nil cs)
    · rw [hsp] at ih1 ih2
      by_cases hc : c = '\n'
      · subst hc
        simp only [if_true]
        constructor
        · intro piece hp
          rcases List.mem_cons.mp hp with rfl | hp
          · simp
          · exact ih1 piece hp
        · simp only [List.intercalate, List.intersperse_cons_cons, List.flatten_cons,
            List.nil_append, List.singleton_append, List.cons.injEq, true_and]
          simpa [List.intercalate] using ih2
      · simp only [hc, if_false]
        constructor
        · intro piece hp
          rcases List.mem_cons.mp hp with rfl | hp
          · intro hmem
            rcases List.mem_cons.mp hmem with h | h
            · exact hc h.symm
            · exact ih1 l (by simp) h
          · exact ih1 piece (by simp [hp])
        · rw [← ih2]
          cases ls with
          | nil => simp [List.intercalate]
          | cons l2 ls2 => simp [List.intercalate]

theorem TrimSpace_head (s : Str) : ∀ c ∈ (TrimSpace s).head?, isSpace c = false := by
  intro c hc
  have hpre : TrimSpace s <+: s.dropWhile isSpace := List.rdropWhile_prefix _ _
  obtain ⟨t, ht⟩ := hpre
  rcases hts : TrimSpace s with _ | ⟨a, r⟩
  · rw [hts] at hc
    simp at hc
  · rw [hts] at hc ht
    simp only [List.head?_cons, Option.mem_def, Option.some.injEq] at hc
    subst hc
    have := List.head?_dropWhile_not isSpace s
    rw [← ht] at this
    simpa using this

theorem TrimSpace_last (s : Str) : ∀ c ∈ (TrimSpace s).getLast?, isSpace c = false := by
  intro c hc
  by_cases hne : TrimSpace s = []
  · rw [hne] at hc
    simp at hc
  · have h1 := List.rdropWhile_last_not isSpace (s.dropWhile isSpace) hne
    have h2 : (TrimSpace s).getLast? = some ((TrimSpace s).getLast hne) :=
      List.getLast?_eq_getLast _ hne
    rw [h2] at hc
    simp only [Option.mem_def, Option.some.injEq] at hc
    rw [← hc]
    simpa using h1

theorem fieldsLoop_ne_nil (cur s : Str) (h : cur ≠ [] ∨ ∃ c ∈ s, isSpace c = false) :
    fieldsLoop cur s ≠ [] := by
  induction s generalizing cur with
  | nil =>
    rcases h with h | ⟨c, hc, _⟩
    · simp [fieldsLoop, h]
    · simp at hc
  | cons d ds ih =>
    unfold fieldsLoop
    by_cases hd : isSpace d = true
    · simp only [hd, if_true]
      by_cases hcur : cur = []
      · subst hcur
        simp only [List.isEmpty_nil, if_true]
        apply ih
        right
        rcases h with h | ⟨c, hc, hsp⟩
        · exact absurd rfl h
        · rcases List.mem_cons.mp hc with rfl | hc
          · rw [hd] at hsp
            simp at hsp
          · exact ⟨c, hc, hsp⟩
      · simp [hcur]
    · simp only [hd]
      exact ih _ (Or.inl (by simp))

/-- C18. `getLines` returns, in source order, the trimmed form of each
newline-separated piece of its input that after trimming is not empty and does
not begin with `#`; so every returned line is non-empty, has no white space at
either end, does not start with `#`, and holds at least one token. -/
theorem getLines_spec (bts : Str) :
    getLines bts =
      ((splitNewline bts).map TrimSpace).filter
        (fun t => !t.isEmpty && !HasPrefix t ['#']) ∧
    (∀ piece ∈ splitNewline bts, '\n' ∉ piece) ∧
    List.intercalate ['\n'] (splitNewline bts) = bts ∧
    (∀ l ∈ getLines bts,
      l ≠ [] ∧ (∀ c ∈ l.head?, isSpace c = false) ∧ (∀ c ∈ l.getLast?, isSpace c = false) ∧
      l.head? ≠ some '#' ∧ 1 ≤ (Fields l).length) := by
  have heq : getLines bts =
      ((splitNewline bts).map TrimSpace).filter
        (fun t => !t.isEmpty && !HasPrefix t ['#']) := by
    rw [getLines_eq, List.filter_map]
    rfl
  refine ⟨heq, (splitNewline_spec bts).1, (splitNewline_spec bts).2, ?_⟩
  intro l hl
  rw [heq] at hl
  obtain ⟨hmem, hkeep⟩ := List.mem_filter.mp hl
  obtain ⟨x, _, rfl⟩ := List.mem_map.mp hmem
  simp only [Bool.and_eq_true, Bool.not_eq_true', List.isEmpty_eq_false] at hkeep
  obtain ⟨hne, hhash⟩ := hkeep
  have hhead := TrimSpace_head x
  refine ⟨hne, hhead, TrimSpace_last x, ?_, ?_⟩
  · intro h
    rcases hts : TrimSpace x with _ | ⟨a, r⟩
    · exact hne hts
    · rw [hts] at h hhash
      simp only [List.head?_cons, Option.some.injEq] at h
      subst h
      simp [HasPrefix] at hhash
  · have hf : Fields (TrimSpace x) ≠ [] := by
      apply fieldsLoop_ne_nil
      right
      rcases hts : TrimSpace x with _ | ⟨a, r⟩
      · exact absurd hts hne
      · rw [hts] at hhead
        exact ⟨a, by simp, hhead a (by simp)⟩
    exact List.length_pos.mpr hf

/-- C18 at a body with a blank line, a comment, and indented lines. -/
theorem getLines_spec_witness :
    getLines "\n  ts: time\r\n\t# when\n\n  uid: string  \n".toList =
      ["ts: time".toList, "uid: string".toList] ∧
    (∀ l ∈ getLines "\n  ts: time\r\n\t# when\n\n  uid: string  \n".toList,
      l ≠ [] ∧ (∀ c ∈ l.head?, isSpace c = false) ∧ (∀ c ∈ l.getLast?, isSpace c = false) ∧
      l.head? ≠ some '#' ∧ 1 ≤ (Fields l).length) :=
  ⟨by decide,
    (getLines_spec "\n  ts: time\r\n\t# when\n\n  uid: string  \n".toList).2.2.2⟩

/-- What `strings.TrimRight(s, ":")` cuts: the whole run of colons at the end. -/
theorem TrimRight_colon (s : Str) :
    ∃ k, s = TrimRight s [':'] ++ List.replicate k ':' ∧
      (TrimRight s [':']).getLast? ≠ some ':' := by
  have hsplit : s = TrimRight s [':'] ++
      (s.reverse.takeWhile (fun c => [':'].contains c)).reverse := by
    unfold TrimRight
    rw [← List.reverse_append, List.takeWhile_append_dropWhile, List.reverse_reverse]
  have hrep : (s.reverse.takeWhile (fun c => [':'].contains c)).reverse =
      List.replicate (s.reverse.takeWhile (fun c => [':'].contains c)).length ':' := by
    rw [List.eq_replicate_iff]
    refine ⟨by simp, ?_⟩
    intro b hb
    have := List.mem_takeWhile_imp (List.mem_reverse.mp hb)
    simpa using this
  refine ⟨_, by rw [← hrep]; exact hsplit, ?_⟩
  intro hlast
  have hne : TrimRight s [':'] ≠ [] := by
    intro h0
    rw [h0] at hlast
    simp at hlast
  have h1 := List.rdropWhile_last_not (fun c => [':'].contains c) s hne
  have h2 : (TrimRight s [':']).getLast? = some ((TrimRight s [':']).getLast hne) :=
    List.getLast?_eq_getLast _ hne
  rw [h2] at hlast
  simp only [Option.some.injEq] at hlast
  apply h1
  have h3 : (List.rdropWhile (fun c => [':'].contains c) s).getLast hne = ':' := hlast
  rw [h3]
  decide

/-- C19, the claim as stated fails: on the line `a:: int` the name returned is
`a`, with both colons cut, not `a:`. -/
theorem getType_cuts_all_colons :
    Fields "a:: int".toList = ["a::".toList, "int".toList] ∧
    getType "a:: int".toList = (⟨"a".toList, "int".toList, 0⟩, none) ∧
    (getType "a:: int".toList).1.Name ≠ "a:".toList :=
  ⟨by decide, by decide, by decide⟩

/-- C19, amended. On a line with at least two tokens `getType` succeeds; the
Name is token 0 without its whole run of trailing colons, so it ends in no
colon; the DataType is token 1 as it stands; further tokens are ignored and Index
stays 0. When token 0 ends in at most one colon, the Name is token 0 with that
one colon removed. -/
theorem getType_spec (l : Str) (h : 2 ≤ (Fields l).length) :
    ∃ t0 t1 more k,
      Fields l = t0 :: t1 :: more ∧
      getType l = (⟨TrimRight t0 [':'], t1, 0⟩, none) ∧
      t0 = TrimRight t0 [':'] ++ List.replicate k ':' ∧
      (TrimRight t0 [':']).getLast? ≠ some ':' ∧
      (k ≤ 1 → TrimRight t0 [':'] = if t0.getLast? = some ':' then t0.dropLast else t0) := by
  rcases hf : Fields l with _ | ⟨t0, _ | ⟨t1, more⟩⟩
  · simp [hf] at h
  · simp [hf] at h
  · obtain ⟨k, hk, hlast⟩ := TrimRight_colon t0
    refine ⟨t0, t1, more, k, rfl, ?_, hk, hlast, ?_⟩
    · rw [getType_eq, hf]
    · intro hk1
      have hk01 : k = 0 ∨ k = 1 := by omega
      rcases hk01 with rfl | rfl
      · simp only [List.replicate_zero, List.append_nil] at hk
        rw [← hk] at hlast ⊢
        simp [hlast]
      · have h1 : t0.getLast? = some ':' := by
          rw [hk]
          simp
        have h2 : t0.dropLast = TrimRight t0 [':'] := by
          conv_lhs => rw [hk]
          simp
        simp [h1, h2]

/-- C19, amended, at the line `ts: time &log`: the third token is ignored. -/
theorem getType_spec_witness :
    getType "ts: time &log".toList = (⟨"ts".toList, "time".toList, 0⟩, none) ∧
    ∃ t0 t1 more k,
      Fields "ts: time &log".toList = t0 :: t1 :: more ∧
      getType "ts: time &log".toList = (⟨TrimRight t0 [':'], t1, 0⟩, none) ∧
      t0 = TrimRight t0 [':'] ++ List.replicate k ':' ∧
      (TrimRight t0 [':']).getLast? ≠ some ':' ∧
      (k ≤ 1 → TrimRight t0 [':'] = if t0.getLast? = some ':' then t0.dropLast else t0) :=
  ⟨by decide, getType_spec "ts: time &log".toList (by decide)⟩

end NamedFields
